import Mathlib

/-!
# Verification of the synSugar micro-parser and conversion engine

This file gives a shallow embedding of `synsugar.js`: the jade-like
`MicroParser` (class `MicroParser`, methods `_next`, `_eatblanks`,
`_getAttr`, `_getString`, `_getValue`, `parse`) and the DOM-rewriting
engine (`createElement`, `getAttrs`, `convert`, `arrayUnique`,
`convertTags`), together with theorems about the embedded definitions.

Modelling conventions:
* JavaScript strings are modelled as Lean `String`/`List Char`; the
  parser scans a `List Char` of remaining input instead of an index into
  a fixed string (the index `this._pos` corresponds to the dropped
  prefix).
* JavaScript `null` is modelled as `Option.none`; JS coercions that the
  code actually exercises (`RegExp.test(null)` testing the string
  `"null"`, string concatenation with `null` producing `"null"`) are
  modelled explicitly where they can fire.
* Every `while` loop takes a fuel parameter and returns `none` when the
  fuel is exhausted; the theorem for the termination claim shows a fuel
  linear in the input length always suffices, mirroring the fact that
  each loop strictly advances the scan position.
* `console.error` calls made by `_syntaxError` are modelled by an error
  log carried in the parser state (the message text; the position and
  offending character interpolated into the JS message are elided).
* The browser document is an external collaborator: nodes are trees with
  a tag, an insertion-ordered attribute list and children; `id` and
  `class` live in the attribute list exactly as DOM content attributes
  do, and `classList` has DOMTokenList ordered-set semantics.  Selector
  matching (`document.querySelectorAll`) is modelled as tag-name
  matching over a flat list of sibling nodes.
* `String.prototype.replace` with a string pattern replaces the first
  occurrence only and processes `$`-replacement patterns (`$$`, `$&`,
  backtick and quote forms) in the replacement; both are modelled.
-/

/-! ## Character classes used by the parser -/

/-- The single-quote character, written via its code point. -/
def squote : Char := Char.ofNat 39

/-- The backslash character. -/
def bslash : Char := Char.ofNat 92

/-- `/[a-zA-Z]/` from `_getAttr`. -/
def isAsciiLetter (ch : Char) : Bool :=
  (('a' ≤ ch) && (ch ≤ 'z')) || (('A' ≤ ch) && (ch ≤ 'Z'))

/-- `/[a-zA-Z0-9_-]/` from `_getAttr`. -/
def isIdentChar (ch : Char) : Bool :=
  isAsciiLetter ch || (('0' ≤ ch) && (ch ≤ '9')) || (ch == '_') || (ch == '-')

/-- `[ ' ', '\t', '\n', '\r' ].indexOf(c) >= 0` from `_eatblanks`;
`indexOf(null)` is `-1`, so `none` is not blank. -/
def isBlankChar : Option Char → Bool
  | some ch => (ch == ' ') || (ch == '\t') || (ch == '\n') || (ch == '\r')
  | none => false

/-- `[ ',', ')', ' ', '\t' ].indexOf(c) >= 0` from `_getValue`;
again `indexOf(null)` is `-1`. -/
def isStopChar : Option Char → Bool
  | some ch => (ch == ',') || (ch == ')') || (ch == ' ') || (ch == '\t')
  | none => false

/-- `chars.test(this._c)` from `_getAttr`.  When `this._c` is JS `null`,
`RegExp.test` coerces it to the string `"null"`, which matches
`/[a-zA-Z]/`, so the test is true. -/
def testChars : Option Char → Bool
  | some ch => isAsciiLetter ch
  | none => true

/-! ## Parser state -/

/-- The scanning state of `MicroParser`: `c` is `this._c`, `p` is
`this._p`, `rest` is `this._txt` from `this._pos` on, and `errors` is
the log of messages passed to `this._syntaxError`. -/
structure PState where
  c : Option Char
  p : Option Char
  rest : List Char
  errors : List String
deriving Repr, DecidableEq

/-- `_start(txt)`: position zero, no current or previous character. -/
def startState (txt : List Char) : PState :=
  { c := none, p := none, rest := txt, errors := [] }

/-- `_next()`: advance one character, returning it, or set `this._c` to
`null` at the end of input (leaving `this._p` untouched).  The first
component is `some ch` exactly when the JS method returns `true`. -/
def pnext (st : PState) : Option Char × PState :=
  match st.rest with
  | ch :: rs => (some ch, { c := some ch, p := st.c, rest := rs, errors := st.errors })
  | [] => (none, { st with c := none })

/-- `_syntaxError(x)`: report the message and return `null` (the caller
propagates the `null`; the state keeps the log). -/
def syntaxError (st : PState) (msg : String) : PState :=
  { st with errors := st.errors ++ [msg] }

/-! ## Parser loops (with fuel)

Every function returns `none` exactly when the fuel runs out. -/

/-- `_eatblanks()`. -/
def eatblanks : Nat → PState → Option PState
  | 0, _ => none
  | fuel + 1, st =>
    if isBlankChar st.c then eatblanks fuel (pnext st).2 else some st

/-- `attr += this._c` in `_getAttr`: JS `+` coerces a `null` left operand
to the string `"null"`. -/
def jsAppend (a : Option String) (ch : Char) : Option String :=
  some ((a.getD "null") ++ ch.toString)

/-- The `while (this._next() && charsEx.test(this._c))` loop of
`_getAttr`, accumulating the identifier. -/
def getAttrLoop : Nat → Option String → PState → Option (Option String × PState)
  | 0, _, _ => none
  | fuel + 1, attr, st =>
    match pnext st with
    | (none, st') => some (attr, st')
    | (some ch, st') =>
      if isIdentChar ch then getAttrLoop fuel (jsAppend attr ch) st'
      else some (attr, st')

/-- `_getAttr()`: skip blanks, test the first character, accumulate the
identifier, skip blanks; returns JS `null` (`none`) when the first
character does not match. -/
def getAttr (fuel : Nat) (st : PState) : Option (Option String × PState) := do
  let st ← eatblanks fuel st
  if ! testChars st.c then
    return (none, st)
  else
    let attr0 : Option String := st.c.map Char.toString
    let (attr, st) ← getAttrLoop fuel attr0 st
    let st ← eatblanks fuel st
    return (attr, st)

/-- The scanning loop of `_getString`: stop at the delimiter unless the
previous character was a backslash; stop (and leave `this._c = null`) at
the end of input. -/
def getStringLoop : Nat → Option Char → String → PState → Option (String × PState)
  | 0, _, _, _ => none
  | fuel + 1, dchar, str, st =>
    match pnext st with
    | (none, st') => some (str, st')
    | (some ch, st') =>
      if st'.c == dchar && st'.p != some bslash then some (str, st')
      else getStringLoop fuel dchar (str ++ ch.toString) st'

/-- `_getString()`: scan to the unescaped closing delimiter; if the end
of input was reached instead, report "unclosed quote" (the `null` that
`_syntaxError` returns is discarded — the partial string is still
returned); finally skip the closing delimiter. -/
def getString (fuel : Nat) (st : PState) : Option (String × PState) := do
  let dchar := st.c
  let (str, st) ← getStringLoop fuel dchar "" st
  let st := if st.c = none then syntaxError st "unclosed quote" else st
  let st := (pnext st).2
  return (str, st)

/-- `value += this._c` in the bareword loop of `_getValue`: appending a
JS `null` appends the string `"null"`. -/
def jsCharVal : Option Char → String
  | some ch => ch.toString
  | none => "null"

/-- The bareword loop of `_getValue`.  The Boolean records whether the
loop ended through the early `return value` inside the loop (end of
input), which skips the trim, the `"null"` conversion and the final
blank skipping. -/
def getValueBare : Nat → String → PState → Option (String × Bool × PState)
  | 0, _, _ => none
  | fuel + 1, value, st =>
    if isStopChar st.c then some (value, false, st)
    else
      let value := value ++ jsCharVal st.c
      match pnext st with
      | (none, st') => some (value, true, st')
      | (some _, st') => getValueBare fuel value st'

/-- JS whitespace for `String.prototype.trim` (the ASCII part; the
inputs here are ASCII). -/
def isJsWS (ch : Char) : Bool :=
  (ch == ' ') || (ch == '\t') || (ch == '\n') || (ch == '\r') ||
  (ch == '\x0b') || (ch == '\x0c')

/-- `value.trim()`: strip whitespace from both ends. -/
def strTrim (s : String) : String :=
  ⟨((s.data.dropWhile isJsWS).reverse.dropWhile isJsWS).reverse⟩

/-- `_getValue()`: a quoted string (delimiter `"` or `'`), or a bareword
trimmed and converted to the `null` sentinel when it is exactly the text
`null`. -/
def getValue (fuel : Nat) (st : PState) : Option (Option String × PState) := do
  let st ← eatblanks fuel st
  if st.c == some '"' || st.c == some squote then
    let (s, st) ← getString fuel st
    let st ← eatblanks fuel st
    return (some s, st)
  else
    let (v, early, st) ← getValueBare fuel "" st
    if early then
      return (some v, st)
    else
      let v := strTrim v
      let jv : Option String := if v = "null" then none else some v
      let st ← eatblanks fuel st
      return (jv, st)

/-! ## Descriptors and the chain parser -/

/-- The object structure produced by `MicroParser.parse` for one chain
segment: `{ tag, id, classes, attrs }`.  Attribute values are `none` for
the JS `null` sentinel. -/
structure Desc where
  tag : String
  id : Option String
  classes : List String
  attrs : List (String × Option String)
deriving Repr, DecidableEq

/-- `attrs[attr] = value` on a JS object: overwrite in place when the
key exists, append otherwise. -/
def objSet (m : List (String × Option String)) (k : String) (v : Option String) :
    List (String × Option String) :=
  if (m.lookup k).isSome then
    m.map (fun p => if p.1 = k then (k, v) else p)
  else m ++ [(k, v)]

/-- The attribute-list loop of `parse` (between `(` and `)`): name,
optional `= value`, then `)` to finish or `,` to continue.  The inner
`none` signals that `parse` returned `null` after a syntax error. -/
def attrLoop : Nat → List (String × Option String) → PState →
    Option (Option (List (String × Option String)) × PState)
  | 0, _, _ => none
  | fuel + 1, attrs, st => do
    let (attr?, st) ← getAttr fuel st
    match attr? with
    | none => some (none, syntaxError st "unexpected attribute")
    | some attr => do
      let st ← eatblanks fuel st
      let (value, st) ←
        if st.c = some '=' then do
          let st := (pnext st).2
          let st ← eatblanks fuel st
          getValue fuel st
        else
          pure ((none : Option String), st)
      let attrs := objSet attrs attr value
      if st.c = some ')' then some (some attrs, st)
      else if st.c ≠ some ',' then some (none, syntaxError st "unexpected character")
      else attrLoop fuel attrs (pnext st).2

/-- The class loop of `parse`: repeat `.` followed by an identifier. -/
def classLoop : Nat → List String → PState → Option (Option (List String) × PState)
  | 0, _, _ => none
  | fuel + 1, classes, st =>
    if st.c = some '.' then do
      let st := (pnext st).2
      let (c?, st) ← getAttr fuel st
      match c? with
      | none => some (none, syntaxError st "unexpected class")
      | some cc => classLoop fuel (classes ++ [cc]) st
    else some (some classes, st)

/-- The attribute part of a segment: absent, or `(` attrlist `)`.  The
`expected )` check after the loop mirrors the source even though the
loop only stops at `)`. -/
def parseAttrsPart (fuel : Nat) (st : PState) :
    Option (Option (List (String × Option String)) × PState) :=
  if st.c = some '(' then do
    let st := (pnext st).2
    match (← attrLoop fuel [] st) with
    | (none, st) => some (none, st)
    | (some attrs, st) =>
      if st.c ≠ some ')' then some (none, syntaxError st "expected )")
      else some (some attrs, (pnext st).2)
  else some (some [], st)

/-- The rest of a segment after the tag and the optional id: classes,
attributes, trailing blanks, and the pushed descriptor. -/
def parseSegmentRest (fuel : Nat) (tag : String) (id : Option String) (st : PState) :
    Option (Option Desc × PState) := do
  let (cls?, st) ← classLoop fuel [] st
  match cls? with
  | none => some (none, st)
  | some classes => do
    let (attrs?, st) ← parseAttrsPart fuel st
    match attrs? with
    | none => some (none, st)
    | some attrs => do
      let st ← eatblanks fuel st
      some (some ⟨tag, id, classes, attrs⟩, st)

/-- One iteration of the chain loop of `parse`: `_next()`, tag name
(defaulting to `"div"`), optional `#id`, classes, attributes. -/
def parseSegment (fuel : Nat) (st : PState) : Option (Option Desc × PState) := do
  let st := (pnext st).2
  let (tag?, st) ← getAttr fuel st
  let tag := tag?.getD "div"
  if st.c = some '#' then
    let st := (pnext st).2
    let (id?, st) ← getAttr fuel st
    match id? with
    | none => some (none, syntaxError st "invalid ID")
    | some id => parseSegmentRest fuel tag (some id) st
  else
    parseSegmentRest fuel tag none st

/-- The `while (true)` chain loop of `parse`: parse a segment, push it,
stop at end of input, require `>` otherwise. -/
def chainLoop : Nat → List Desc → PState → Option (Option (List Desc) × PState)
  | 0, _, _ => none
  | fuel + 1, results, st => do
    let (d?, st) ← parseSegment fuel st
    match d? with
    | none => some (none, st)
    | some d =>
      let results := results ++ [d]
      if st.c = none then some (some results, st)
      else if st.c ≠ some '>' then some (none, syntaxError st "expected > or EOF")
      else chainLoop fuel results st

/-- Fuel sufficient for any input (proved below): linear in the length. -/
def parseBound (txt : List Char) : Nat := 2 * txt.length + 2

/-- `parse(txt)` run on the start state, exposing the final state. -/
def parseRun (txt : List Char) : Option (Option (List Desc) × PState) :=
  chainLoop (parseBound txt) [] (startState txt)

/-- The value `parse(txt)` returns: the descriptor chain, or `none` for
the JS `null` returned after a syntax error. -/
def parseResultO (txt : List Char) : Option (List Desc) :=
  match parseRun txt with
  | some (r, _) => r
  | none => none

/-- The messages reported through `_syntaxError` during `parse(txt)`. -/
def parseErrors (txt : List Char) : List String :=
  match parseRun txt with
  | some (_, st) => st.errors
  | none => []

/-- `MicroParser.parse` on a string. -/
def parse (txt : String) : Option (List Desc) := parseResultO txt.data

/-! ## The document collaborator

An abstract DOM node: tag name, insertion-ordered attribute list (the
`id` and `class` content attributes live here, as in the DOM), child
nodes. -/

inductive DOMNode where
  | mk : String → List (String × String) → List DOMNode → DOMNode

/-- The node's tag name. -/
def DOMNode.tag : DOMNode → String
  | .mk t _ _ => t

/-- The node's attribute list (names with values, in order). -/
def DOMNode.attrs : DOMNode → List (String × String)
  | .mk _ a _ => a

/-- The node's children. -/
def DOMNode.children : DOMNode → List DOMNode
  | .mk _ _ c => c

/-- Replace the attribute list. -/
def DOMNode.withAttrs : DOMNode → List (String × String) → DOMNode
  | .mk t _ c, a => .mk t a c

/-- Replace the child list. -/
def DOMNode.withChildren : DOMNode → List DOMNode → DOMNode
  | .mk t a _, c => .mk t a c

/-- `el.getAttribute(name)` (as an `Option`; the DOM returns `null` for
an absent attribute). -/
def getAttribute (n : DOMNode) (k : String) : Option String :=
  n.attrs.lookup k

/-- Set a key in an attribute list: overwrite in place, or append. -/
def setAttributeList (m : List (String × String)) (k v : String) :
    List (String × String) :=
  if (m.lookup k).isSome then
    m.map (fun p => if p.1 = k then (k, v) else p)
  else m ++ [(k, v)]

/-- `el.setAttribute(name, value)`. -/
def setAttribute (n : DOMNode) (k v : String) : DOMNode :=
  n.withAttrs (setAttributeList n.attrs k v)

/-- `el.removeAttribute(name)` (a no-op when absent). -/
def removeAttribute (n : DOMNode) (k : String) : DOMNode :=
  n.withAttrs (n.attrs.filter (fun p => p.1 != k))

/-- `el.getAttributeNames()`. -/
def getAttributeNames (n : DOMNode) : List String :=
  n.attrs.map Prod.fst

/-- ASCII whitespace, the separator set for the `class` attribute. -/
def isSpaceChar (ch : Char) : Bool :=
  (ch == ' ') || (ch == '\t') || (ch == '\n') || (ch == '\x0c') || (ch == '\r')

/-- Split a character list into whitespace-separated tokens. -/
def tokenize (cur : List Char) : List Char → List (List Char)
  | [] => if cur = [] then [] else [cur]
  | ch :: cs =>
    if isSpaceChar ch then
      if cur = [] then tokenize [] cs else cur :: tokenize [] cs
    else tokenize (cur ++ [ch]) cs

/-- First-occurrence deduplication (the DOMTokenList "ordered set"). -/
def dedupFirstAux (seen : List String) : List String → List String
  | [] => []
  | x :: xs =>
    if x ∈ seen then dedupFirstAux seen xs
    else x :: dedupFirstAux (seen ++ [x]) xs

/-- First-occurrence deduplication of a token list. -/
def dedupFirst (l : List String) : List String := dedupFirstAux [] l

/-- `el.classList` as a token list: parse the `class` attribute as an
ordered set of whitespace-separated tokens. -/
def classListOf (n : DOMNode) : List String :=
  dedupFirst ((tokenize [] ((getAttribute n "class").getD "").data).map (fun t => (⟨t⟩ : String)))

/-- DOMTokenList serialization: tokens joined by single spaces. -/
def joinClasses : List String → String
  | [] => ""
  | [t] => t
  | t :: t' :: ts => t ++ " " ++ joinClasses (t' :: ts)

/-- `el.classList.add(c)`: a no-op when the token is present, otherwise
append it to the ordered set backing the `class` attribute. -/
def classListAdd (n : DOMNode) (c : String) : DOMNode :=
  let toks := classListOf n
  if c ∈ toks then n else setAttribute n "class" (joinClasses (toks ++ [c]))

/-! ## `createElement`, `getAttrs`, `arrayUnique`, `convert` -/

/-- One iteration of the attribute loop of `createElement`:
`removeAttribute` on the null sentinel, `setAttribute` otherwise. -/
def applyAttrEntry (el : DOMNode) (kv : String × Option String) : DOMNode :=
  match kv.2 with
  | none => removeAttribute el kv.1
  | some v => setAttribute el kv.1 v

/-- `createElement(def)`: a fresh element with the descriptor's tag; set
`el.id` when the descriptor's id is not null (`el.id = v` writes the
`id` content attribute); `classList.add` each class; then for each entry
of the attribute map, `removeAttribute` on the null sentinel and
`setAttribute` otherwise. -/
def createElement (d : Desc) : DOMNode :=
  let el : DOMNode := .mk d.tag [] []
  let el := match d.id with
    | some i => setAttribute el "id" i
    | none => el
  let el := d.classes.foldl classListAdd el
  let el := d.attrs.foldl applyAttrEntry el
  el

/-- `getAttrs(el)`: the dictionary of the element's attributes. -/
def getAttrs (el : DOMNode) : List (String × String) := el.attrs

/-- `arrayUnique(ar)`: `ar.filter((item, index) => ar.indexOf(item) === index)`. -/
def arrayUnique (ar : List String) : List String :=
  (ar.enum.filter (fun p => ar.indexOf p.2 == p.1)).map Prod.snd

/-- One iteration of the attribute-copy loop of `convert`: copy one of
`el`'s attribute names into the descriptor's attribute map unless it is
`class` or the key is already defined (a null-sentinel entry counts as
defined). -/
def copyElAttr (el : DOMNode) (m : List (String × Option String)) (prop : String) :
    List (String × Option String) :=
  if prop ∈ ["class"] then m
  else if (m.lookup prop).isSome then m
  else m ++ [(prop, some ((getAttribute el prop).getD ""))]

/-- `convert(el, def)`: deep-copy the descriptor (values are pure here,
so the `JSON.parse(JSON.stringify(def))` copy is the identity), copy
`el`'s attributes other than `class` into the attribute map, append
`el.classList` to the classes and deduplicate with `arrayUnique`, build
the element and move `el`'s children onto it. -/
def convert (el : DOMNode) (d0 : Desc) : DOMNode :=
  let d := d0
  let d := { d with attrs := (getAttributeNames el).foldl (copyElAttr el) d.attrs }
  let d := { d with classes := d.classes ++ classListOf el }
  let d := { d with classes := arrayUnique d.classes }
  let converted := createElement d
  let converted := converted.withChildren (converted.children ++ el.children)
  converted

/-! ## Placeholder substitution and `convertTags` -/

/-- The `$`-replacement patterns of `String.prototype.replace` applied
to the replacement string: `$$` is a literal dollar, `$&` the matched
substring, the backtick form the text before the match, the quote form
the text after the match; anything else is literal. -/
def jsGetSubstitution (matched before after : List Char) : List Char → List Char
  | [] => []
  | c :: rest =>
    if c = '$' then
      match rest with
      | [] => ['$']
      | d :: rest' =>
        if d = '$' then '$' :: jsGetSubstitution matched before after rest'
        else if d = '&' then matched ++ jsGetSubstitution matched before after rest'
        else if d = Char.ofNat 96 then before ++ jsGetSubstitution matched before after rest'
        else if d = squote then after ++ jsGetSubstitution matched before after rest'
        else '$' :: d :: jsGetSubstitution matched before after rest'
    else c :: jsGetSubstitution matched before after rest

/-- `s.replace(pat, rep)` with a string pattern: replace the first
occurrence only, applying the `$`-patterns of the replacement; `before`
accumulates the scanned prefix (in reverse) for the backtick form. -/
def replaceFirstAux (pat rep : List Char) (before : List Char) :
    List Char → List Char
  | [] => if pat.isPrefixOf ([] : List Char) then jsGetSubstitution pat before.reverse [] rep else []
  | c :: cs =>
    if pat.isPrefixOf (c :: cs) then
      jsGetSubstitution pat before.reverse ((c :: cs).drop pat.length) rep ++ (c :: cs).drop pat.length
    else c :: replaceFirstAux pat rep (c :: before) cs

/-- `s.replace(pat, rep)` on strings. -/
def replaceFirst (s pat rep : String) : String :=
  ⟨replaceFirstAux pat.data rep.data [] s.data⟩

/-- `elAttrs[attr] || ""` — on strings the `||` only maps the empty
string (falsy) to itself, so this is the identity, written as the
truthiness test. -/
def jsOrEmpty (s : String) : String := if s = "" then "" else s

/-- The placeholder-substitution double loop of `convertTags`: for one
converted attribute value, run once over `el`'s original attributes and
replace (the first occurrence of) each token `${name}`. -/
def substValue (elAttrs : List (String × String)) (v : String) : String :=
  elAttrs.foldl (fun acc kv =>
    replaceFirst acc ("$\x7b" ++ kv.1 ++ "\x7d") (jsOrEmpty kv.2)) v

/-- `converted.setAttribute(attr, convertedAttrs[attr])` for one entry
of the substituted attribute dictionary. -/
def setAttrEntry (n : DOMNode) (kv : String × String) : DOMNode :=
  setAttribute n kv.1 kv.2

/-- The per-matched-element work of `convertTags` on the target
descriptor: capture `el`'s attributes, `convert`, substitute the
placeholders in every attribute value of the converted node, and set the
substituted attributes back. -/
def convertTagsTarget (el : DOMNode) (target : Desc) : DOMNode :=
  let elAttrs := getAttrs el
  let converted := convert el target
  let convertedAttrs := getAttrs converted
  let convertedAttrs := convertedAttrs.map (fun kv => (kv.1, substValue elAttrs kv.2))
  convertedAttrs.foldl setAttrEntry converted

/-- The intermediate-element loop of `convertTags`: instantiate each
non-target descriptor as a fresh element, nest them in order, and place
the converted target innermost.  The result is the node that replaces
the matched element (`root` when there are intermediates). -/
def nestChain : List Desc → DOMNode → DOMNode
  | [], inner => inner
  | d :: ds, inner =>
    let n := createElement d
    n.withChildren (n.children ++ [nestChain ds inner])

/-- The selector collaborator (`document.querySelectorAll`), modelled
for tag-name selectors over a flat list of siblings. -/
def selMatches (sel : String) (n : DOMNode) : Bool := n.tag == sel

/-- Apply one conversion rule to every matched element of the document
(replacing each matched element in place by the built structure). -/
def applyRule (inters : List Desc) (target : Desc) (sel : String)
    (doc : List DOMNode) : List DOMNode :=
  doc.map (fun el =>
    if selMatches sel el then nestChain inters (convertTagsTarget el target) else el)

/-- A thrown JS exception.  `TypeError` is what `elements.pop()` throws
when `parse` returned `null`. -/
inductive JSException where
  | typeError
deriving Repr, DecidableEq

/-- `convertTags(conversions)`: for each rule in order, parse the
definition string and rewrite the matching elements.  When `parse`
returns `null` after a syntax error, the unguarded `elements.pop()`
throws a `TypeError`, which propagates out of `convertTags` (no later
rule is processed). -/
def convertTagsGo : List (String × String) → List DOMNode →
    Except JSException (List DOMNode)
  | [], doc => .ok doc
  | (o, conversion) :: restRules, doc =>
    match parse conversion with
    | none => .error .typeError
    | some elements =>
      match elements.getLast? with
      | none => .error .typeError
      | some target =>
        convertTagsGo restRules (applyRule elements.dropLast target o doc)

/-- The whole conversion pass. -/
def convertTags (conversions : List (String × String)) (doc : List DOMNode) :
    Except JSException (List DOMNode) :=
  convertTagsGo conversions doc

/-! ## Association-list lemmas for the document model -/

theorem lookup_isSome_iff {β : Type} (m : List (String × β)) (k : String) :
    (m.lookup k).isSome = true ↔ k ∈ m.map Prod.fst := by
  induction m with
  | nil => simp [List.lookup]
  | cons p ps ih =>
    obtain ⟨a, b⟩ := p
    by_cases h : k = a
    · subst h; simp [List.lookup]
    · simp [List.lookup, beq_false_of_ne h, h, ih]

theorem lookup_eq_none_iff {β : Type} (m : List (String × β)) (k : String) :
    m.lookup k = none ↔ k ∉ m.map Prod.fst := by
  rw [← lookup_isSome_iff]
  cases m.lookup k <;> simp

theorem filterKey_nil_of_lookup_none {β : Type} {m : List (String × β)} {k : String}
    (h : m.lookup k = none) : m.filter (fun p => p.1 == k) = [] := by
  induction m with
  | nil => rfl
  | cons p ps ih =>
    obtain ⟨a, b⟩ := p
    by_cases hk : k = a
    · subst hk; simp [List.lookup] at h
    · rw [List.lookup_cons] at h
      simp only [beq_false_of_ne hk] at h
      simp [List.filter, show (a == k) = false from beq_false_of_ne (Ne.symm hk), ih h]

theorem mapUpdate_lookup_ne {β : Type} (m : List (String × β)) (k q : String) (v : β)
    (h : q ≠ k) :
    (m.map (fun p => if p.1 = k then (k, v) else p)).lookup q = m.lookup q := by
  induction m with
  | nil => rfl
  | cons p ps ih =>
    obtain ⟨a, b⟩ := p
    by_cases ha : a = k
    · subst ha
      simp [List.lookup_cons, beq_false_of_ne h, ih]
    · simp [List.lookup_cons, ha, ih]

theorem mapUpdate_lookup_eq {β : Type} (m : List (String × β)) (k : String) (v : β)
    (h : (m.lookup k).isSome = true) :
    (m.map (fun p => if p.1 = k then (k, v) else p)).lookup k = some v := by
  induction m with
  | nil => simp [List.lookup] at h
  | cons p ps ih =>
    obtain ⟨a, b⟩ := p
    by_cases ha : a = k
    · subst ha; simp [List.lookup_cons]
    · rw [List.lookup_cons] at h
      simp only [beq_false_of_ne (Ne.symm ha)] at h
      simp [List.lookup_cons, ha, beq_false_of_ne (Ne.symm ha), ih h]

theorem setAttributeList_lookup (m : List (String × String)) (k v q : String) :
    (setAttributeList m k v).lookup q = if q = k then some v else m.lookup q := by
  unfold setAttributeList
  cases hs : (m.lookup k).isSome with
  | true =>
    simp only [hs, if_true]
    by_cases h : q = k
    · subst h
      rw [mapUpdate_lookup_eq m q v hs]
      simp
    · rw [mapUpdate_lookup_ne m k q v h]
      simp [h]
  | false =>
    simp only [hs, Bool.false_eq_true, if_false]
    rw [List.lookup_append]
    by_cases h : q = k
    · subst h
      cases hm : m.lookup q
      · simp [List.lookup]
      · simp [hm] at hs
    · simp [List.lookup, beq_false_of_ne h, h]

/-! ## DOM-operation lemmas -/

theorem attrs_withChildren (n : DOMNode) (cs : List DOMNode) :
    (n.withChildren cs).attrs = n.attrs := by
  cases n; rfl

theorem getAttribute_withChildren (n : DOMNode) (cs : List DOMNode) (q : String) :
    getAttribute (n.withChildren cs) q = getAttribute n q := by
  unfold getAttribute; rw [attrs_withChildren]

theorem attrs_withAttrs (n : DOMNode) (a : List (String × String)) :
    (n.withAttrs a).attrs = a := by
  cases n; rfl

theorem getAttribute_setAttribute (n : DOMNode) (k v q : String) :
    getAttribute (setAttribute n k v) q = if q = k then some v else getAttribute n q := by
  unfold getAttribute setAttribute
  rw [attrs_withAttrs, setAttributeList_lookup]

theorem getAttribute_removeAttribute (n : DOMNode) (k q : String) :
    getAttribute (removeAttribute n k) q = if q = k then none else getAttribute n q := by
  unfold getAttribute removeAttribute
  rw [attrs_withAttrs]
  induction n.attrs with
  | nil => by_cases h : q = k <;> simp [List.lookup, h]
  | cons p ps ih =>
    obtain ⟨a, b⟩ := p
    by_cases ha : a = k
    · subst ha
      by_cases h : q = a
      · subst h; simpa [List.filter, List.lookup_cons] using ih
      · simp only [List.filter]
        simpa [List.lookup_cons, beq_false_of_ne h, h] using ih
    · by_cases h : q = a
      · subst h
        simp [List.filter, bne, beq_false_of_ne ha, List.lookup_cons, Ne.symm, ha]
      · simp only [List.filter, bne, beq_false_of_ne ha]
        simpa [List.lookup_cons, beq_false_of_ne h] using ih

theorem getAttribute_classListAdd (n : DOMNode) (c : String) (q : String)
    (h : q ≠ "class") : getAttribute (classListAdd n c) q = getAttribute n q := by
  unfold classListAdd
  by_cases hc : c ∈ classListOf n
  · simp [hc]
  · simp only [hc, if_false]
    rw [getAttribute_setAttribute]
    simp [h]

theorem getAttribute_classFold (cs : List String) (n : DOMNode) (q : String)
    (h : q ≠ "class") :
    getAttribute (cs.foldl classListAdd n) q = getAttribute n q := by
  induction cs generalizing n with
  | nil => rfl
  | cons c cs ih => rw [List.foldl_cons, ih, getAttribute_classListAdd n c q h]

/-- `(a :: l).getLast?` as an `Option.or`. -/
theorem getLast?_cons_or {α : Type} (a : α) (l : List α) :
    (a :: l).getLast? = l.getLast?.or (some a) := by
  induction l generalizing a with
  | nil => rfl
  | cons b bs ih =>
    rw [List.getLast?_cons_cons, ih b]
    cases hb : (bs.getLast?) <;> simp [List.getLast?]

theorem getAttribute_applyAttrFold (entries : List (String × Option String))
    (n : DOMNode) (q : String) :
    getAttribute (entries.foldl applyAttrEntry n) q =
      match (entries.filter (fun kv => kv.1 == q)).getLast? with
      | some kv => kv.2
      | none => getAttribute n q := by
  induction entries generalizing n with
  | nil => rfl
  | cons kv rest ih =>
    obtain ⟨a, b⟩ := kv
    rw [List.foldl_cons, ih]
    by_cases ha : a = q
    · subst ha
      simp only [List.filter, beq_self_eq_true]
      rw [getLast?_cons_or]
      cases hrest : ((rest.filter (fun kv => kv.1 == a)).getLast?) with
      | some kv' => simp
      | none =>
        simp only [Option.or]
        cases b with
        | none =>
          unfold applyAttrEntry
          simp [getAttribute_removeAttribute]
        | some v =>
          unfold applyAttrEntry
          simp [getAttribute_setAttribute]
    · simp only [List.filter, beq_false_of_ne ha]
      cases hrest : ((rest.filter (fun kv => kv.1 == q)).getLast?) with
      | some kv' => simp
      | none =>
        cases b with
        | none =>
          unfold applyAttrEntry
          simp [getAttribute_removeAttribute, Ne.symm ha]
        | some v =>
          unfold applyAttrEntry
          simp [getAttribute_setAttribute, Ne.symm ha]

theorem getAttribute_setAttrFold (entries : List (String × String))
    (n : DOMNode) (q : String) :
    getAttribute (entries.foldl setAttrEntry n) q =
      ((entries.filter (fun kv => kv.1 == q)).getLast?.map Prod.snd).or (getAttribute n q) := by
  induction entries generalizing n with
  | nil => rfl
  | cons kv rest ih =>
    obtain ⟨a, b⟩ := kv
    rw [List.foldl_cons, ih]
    by_cases ha : a = q
    · subst ha
      simp only [List.filter, beq_self_eq_true]
      rw [getLast?_cons_or]
      cases hrest : ((rest.filter (fun kv => kv.1 == a)).getLast?) with
      | some kv' => simp
      | none =>
        unfold setAttrEntry
        simp [getAttribute_setAttribute]
    · simp only [List.filter, beq_false_of_ne ha]
      cases hrest : ((rest.filter (fun kv => kv.1 == q)).getLast?) with
      | some kv' => simp
      | none =>
        unfold setAttrEntry
        simp [getAttribute_setAttribute, Ne.symm ha]

/-! ## The attribute-copy fold of `convert` -/

theorem copyFold_lookup (el : DOMNode) (names : List String)
    (m : List (String × Option String)) (k : String) :
    ((names.foldl (copyElAttr el) m).lookup k) =
      (m.lookup k).or
        (if k ≠ "class" ∧ k ∈ names then some (some ((getAttribute el k).getD "")) else none) := by
  induction names generalizing m with
  | nil => simp
  | cons p ps ih =>
    rw [List.foldl_cons, ih]
    unfold copyElAttr
    by_cases hp : p = "class"
    · subst hp
      simp only [List.mem_singleton, if_true]
      by_cases hk : k = "class"
      · subst hk; simp
      · simp [List.mem_cons, hk]
    · simp only [List.mem_singleton, hp, if_false]
      by_cases hs : (m.lookup p).isSome = true
      · simp only [hs, if_true]
        by_cases hkp : k = p
        · subst hkp
          obtain ⟨v, hv⟩ := Option.isSome_iff_exists.mp hs
          simp [hv, Option.or]
        · simp [List.mem_cons, hkp]
      · simp only [hs, Bool.false_eq_true, if_false]
        rw [List.lookup_append]
        by_cases hkp : k = p
        · subst hkp
          have hnone : m.lookup k = none := by
            cases h : m.lookup k
            · rfl
            · simp [h] at hs
          simp [hnone, List.lookup, hp, Option.or]
        · have h1 : List.lookup k [(p, some ((getAttribute el p).getD ""))] = none := by
            simp [List.lookup, beq_false_of_ne hkp]
          simp [h1, List.mem_cons, hkp]

theorem copyFold_filter (el : DOMNode) (names : List String)
    (m : List (String × Option String)) (k : String) (hk : k ≠ "class") :
    (names.foldl (copyElAttr el) m).filter (fun p => p.1 == k) =
      m.filter (fun p => p.1 == k) ++
        (if m.lookup k = none ∧ k ∈ names
         then [(k, some ((getAttribute el k).getD ""))] else []) := by
  induction names generalizing m with
  | nil => simp
  | cons p ps ih =>
    rw [List.foldl_cons, ih]
    unfold copyElAttr
    by_cases hp : p = "class"
    · subst hp
      simp only [List.mem_singleton, if_true]
      have hmem : (k ∈ "class" :: ps) = (k ∈ ps) := by simp [List.mem_cons, hk]
      simp only [hmem]
    · simp only [List.mem_singleton, hp, if_false]
      by_cases hs : (m.lookup p).isSome = true
      · simp only [hs, if_true]
        by_cases hkp : k = p
        · subst hkp
          have : ¬ (m.lookup k = none) := by
            cases h : m.lookup k
            · simp [h] at hs
            · simp
          simp [this, List.mem_cons]
        · have hmem : (k ∈ p :: ps) = (k ∈ ps) := by simp [List.mem_cons, hkp]
          simp only [hmem]
      · simp only [hs, Bool.false_eq_true, if_false]
        rw [List.filter_append, List.lookup_append]
        by_cases hkp : k = p
        · subst hkp
          have hnone : m.lookup k = none := by
            cases h : m.lookup k
            · rfl
            · simp [h] at hs
          have hfl : List.filter (fun q => q.1 == k) [(k, some ((getAttribute el k).getD ""))] =
              [(k, some ((getAttribute el k).getD ""))] := by simp
          have hlk : List.lookup k [(k, some ((getAttribute el k).getD ""))] =
              some (some ((getAttribute el k).getD "")) := by simp [List.lookup]
          simp [hfl, hnone, hlk, List.mem_cons, Option.or]
        · have h1 : List.lookup k [(p, some ((getAttribute el p).getD ""))] = none := by
            simp [List.lookup, beq_false_of_ne hkp]
          have h3 : List.filter (fun q => q.1 == k) [(p, some ((getAttribute el p).getD ""))] = [] := by
            simp [beq_false_of_ne (Ne.symm hkp)]
          rw [h1, h3, Option.or_none, List.append_nil]
          have hmem : (k ∈ p :: ps) = (k ∈ ps) := by simp [List.mem_cons, hkp]
          simp only [hmem]

/-! ## Key-uniqueness invariants -/

theorem keys_mapUpdate {β : Type} (m : List (String × β)) (k : String) (v : β) :
    (m.map (fun p => if p.1 = k then (k, v) else p)).map Prod.fst = m.map Prod.fst := by
  induction m with
  | nil => rfl
  | cons p ps ih =>
    obtain ⟨a, b⟩ := p
    by_cases ha : a = k
    · subst ha; simpa using ih
    · simpa [ha] using ih

theorem nodupKeys_setAttributeList {m : List (String × String)} {k v : String}
    (h : (m.map Prod.fst).Nodup) :
    ((setAttributeList m k v).map Prod.fst).Nodup := by
  unfold setAttributeList
  cases hs : (m.lookup k).isSome with
  | true =>
    simp only [hs, if_true]
    rw [keys_mapUpdate]
    exact h
  | false =>
    simp only [hs, Bool.false_eq_true, if_false, List.map_append]
    have hk : k ∉ m.map Prod.fst := by
      rw [← lookup_isSome_iff]
      simp [hs]
    have hdisj : List.Disjoint (m.map Prod.fst) ([(k, v)].map Prod.fst) := by
      intro x hx hk2
      simp at hk2
      subst hk2
      exact hk hx
    exact List.Nodup.append h (by simp) hdisj

theorem nodupKeys_removeAttribute {m : List (String × String)} {k : String}
    (h : (m.map Prod.fst).Nodup) :
    ((m.filter (fun p => p.1 != k)).map Prod.fst).Nodup := by
  have hsub : (m.filter (fun p => p.1 != k)).Sublist m := List.filter_sublist m
  exact (hsub.map Prod.fst).nodup h

theorem attrsNodup_setAttribute {n : DOMNode} {k v : String}
    (h : (n.attrs.map Prod.fst).Nodup) :
    ((setAttribute n k v).attrs.map Prod.fst).Nodup := by
  unfold setAttribute
  rw [attrs_withAttrs]
  exact nodupKeys_setAttributeList h

theorem attrsNodup_removeAttribute {n : DOMNode} {k : String}
    (h : (n.attrs.map Prod.fst).Nodup) :
    ((removeAttribute n k).attrs.map Prod.fst).Nodup := by
  unfold removeAttribute
  rw [attrs_withAttrs]
  exact nodupKeys_removeAttribute h

theorem attrsNodup_classListAdd {n : DOMNode} {c : String}
    (h : (n.attrs.map Prod.fst).Nodup) :
    ((classListAdd n c).attrs.map Prod.fst).Nodup := by
  unfold classListAdd
  by_cases hc : c ∈ classListOf n
  · simpa [hc] using h
  · simp only [hc, if_false]
    exact attrsNodup_setAttribute h

theorem attrsNodup_classFold {cs : List String} {n : DOMNode}
    (h : (n.attrs.map Prod.fst).Nodup) :
    ((cs.foldl classListAdd n).attrs.map Prod.fst).Nodup := by
  induction cs generalizing n with
  | nil => exact h
  | cons c cs ih => exact ih (attrsNodup_classListAdd h)

theorem attrsNodup_applyAttrFold {entries : List (String × Option String)} {n : DOMNode}
    (h : (n.attrs.map Prod.fst).Nodup) :
    ((entries.foldl applyAttrEntry n).attrs.map Prod.fst).Nodup := by
  induction entries generalizing n with
  | nil => exact h
  | cons kv rest ih =>
    rw [List.foldl_cons]
    refine ih ?_
    obtain ⟨a, b⟩ := kv
    cases b with
    | none => exact attrsNodup_removeAttribute h
    | some v => exact attrsNodup_setAttribute h

theorem attrsNodup_createElement (d : Desc) :
    ((createElement d).attrs.map Prod.fst).Nodup := by
  unfold createElement
  refine attrsNodup_applyAttrFold (attrsNodup_classFold ?_)
  cases hid : d.id with
  | none => simp [DOMNode.attrs]
  | some i => exact attrsNodup_setAttribute (by simp [DOMNode.attrs])

theorem filterKey_of_nodupKeys {β : Type} {m : List (String × β)} {k : String}
    (h : (m.map Prod.fst).Nodup) :
    m.filter (fun p => p.1 == k) =
      (match m.lookup k with
       | some v => [(k, v)]
       | none => []) := by
  induction m with
  | nil => rfl
  | cons p ps ih =>
    obtain ⟨a, b⟩ := p
    simp only [List.map_cons, List.nodup_cons] at h
    obtain ⟨ha, hps⟩ := h
    by_cases hk : a = k
    · subst hk
      have hnone : ps.lookup a = none := by
        rw [lookup_eq_none_iff]
        exact ha
      simp [List.filter, List.lookup_cons, filterKey_nil_of_lookup_none hnone]
    · simp only [List.filter, beq_false_of_ne hk, List.lookup_cons,
        beq_false_of_ne (fun h => hk h.symm)]
      exact ih hps

/-! ## Claim C2: id handling in the merge -/

/-- A matched node carrying an id attribute (the DOM exposes `id` via
`getAttributeNames` like any other attribute). -/
def elC2 : DOMNode := .mk "a" [("id", "orig")] []

/-- A target descriptor with an id of its own, as parsed from `button#new`. -/
def dC2 : Desc := ⟨"button", some "new", [], []⟩

/-- C2, counterexample: the claim says the merged node's id equals the
target descriptor's id (`"new"`) whenever the descriptor has one, and
that `el`'s own id is never carried over; but merging `elC2` (id
`"orig"`) with `dC2` (id `"new"`) builds a node whose id is `"orig"` —
`el`'s id is copied by the generic attribute loop (only `class` is
excluded) and overwrites the descriptor's id. -/
theorem c2_counterexample :
    dC2.id = some "new" ∧
    getAttribute (convert elC2 dC2) "id" = some "orig" ∧
    (some "orig" : Option String) ≠ some "new" :=
  ⟨rfl, rfl, by decide⟩

/-- C2, amended: when the target descriptor's attribute map has no
explicit `id` key, the merged node's id is `el`'s id attribute when `el`
has one (carried over by the generic attribute copy, overriding the
descriptor's id), and the descriptor's id (or nothing) otherwise. -/
theorem c2_id_merge_amended (el : DOMNode) (d : Desc)
    (hid : d.attrs.lookup "id" = none) :
    getAttribute (convert el d) "id" = (getAttribute el "id").or d.id := by
  simp only [convert]
  rw [getAttribute_withChildren]
  simp only [createElement]
  rw [getAttribute_applyAttrFold]
  have hfil := copyFold_filter el (getAttributeNames el) d.attrs "id" (by decide)
  rw [filterKey_nil_of_lookup_none hid] at hfil
  simp only [hid, List.nil_append, true_and] at hfil
  by_cases hmem : "id" ∈ getAttributeNames el
  · rw [hfil]
    simp only [hmem, if_true, List.getLast?_singleton]
    have hsome : (getAttribute el "id").isSome = true := by
      unfold getAttribute
      rw [lookup_isSome_iff]
      exact hmem
    obtain ⟨v, hv⟩ := Option.isSome_iff_exists.mp hsome
    simp [hv, Option.or]
  · rw [hfil]
    simp only [hmem, if_false, List.getLast?_nil]
    have hnone : getAttribute el "id" = none := by
      unfold getAttribute
      rw [lookup_eq_none_iff]
      exact hmem
    rw [hnone]
    rw [getAttribute_classFold _ _ _ (by decide)]
    cases hd : d.id with
    | none => simp [getAttribute, DOMNode.attrs, List.lookup]
    | some i =>
      rw [getAttribute_setAttribute]
      simp [Option.or]

/-- C2, witness for the amended theorem at a concrete input. -/
theorem c2_witness :
    dC2.attrs.lookup "id" = none ∧
    getAttribute (convert elC2 dC2) "id" = (getAttribute elC2 "id").or dC2.id :=
  ⟨rfl, c2_id_merge_amended elC2 dC2 rfl⟩

/-! ## Claim C1: a parse failure aborts the whole conversion pass -/

/-- A document with one `a` element and one `b` element. -/
def docC1 : List DOMNode := [.mk "a" [("href", "x")] [], .mk "b" [] []]

/-- C1: the first rule's definition string `"#"` fails to parse (the
failure is reported as `invalid ID` and `parse` returns null), but then
`convertTags` calls `elements.pop()` on the null result, throwing a
`TypeError` that aborts the whole pass — the valid second rule is never
applied, although on its own it converts the document fine. -/
theorem c1_convertTags_aborts_on_parse_failure :
    parse "#" = none ∧
    "invalid ID" ∈ parseErrors "#".data ∧
    convertTags [("a", "#"), ("b", "b.x")] docC1 = .error .typeError ∧
    convertTags [("b", "b.x")] docC1 =
      .ok [.mk "a" [("href", "x")] [], .mk "b" [("class", "x")] []] :=
  ⟨rfl, by decide, rfl, rfl⟩

/-! ## Claim C4: the null sentinel -/

/-- C4: `a(x=null)` parses to the null sentinel, `a(x='null')` to the
four-character string, and an attribute without `=` gets the sentinel. -/
theorem c4_null_sentinel :
    parse "a(x=null)" = some [⟨"a", none, [], [("x", none)]⟩] ∧
    parse "a(x='null')" = some [⟨"a", none, [], [("x", some "null")]⟩] ∧
    parse "a(x)" = some [⟨"a", none, [], [("x", none)]⟩] :=
  ⟨rfl, rfl, rfl⟩

/-! ## Replacement lemmas -/

theorem jsOrEmpty_eq (s : String) : jsOrEmpty s = s := by
  by_cases h : s = "" <;> simp [jsOrEmpty, h]

theorem jsGetSubstitution_no_dollar (matched before after : List Char)
    (rep : List Char) (h : '$' ∉ rep) :
    jsGetSubstitution matched before after rep = rep := by
  induction rep with
  | nil => rfl
  | cons c rest ih =>
    have hc : c ≠ '$' := by
      intro hc
      exact h (hc ▸ List.mem_cons_self c rest)
    have hrest : '$' ∉ rest := fun hm => h (List.mem_cons_of_mem c hm)
    rw [jsGetSubstitution.eq_def]
    simp only [hc, if_false]
    rw [ih hrest]

theorem replaceFirstAux_hit (pat rep before rest : List Char) :
    replaceFirstAux pat rep before (pat ++ rest) =
      jsGetSubstitution pat before.reverse rest rep ++ rest := by
  cases hp : pat with
  | nil =>
    cases rest with
    | nil => simp [replaceFirstAux, List.isPrefixOf]
    | cons c cs => simp [replaceFirstAux, List.isPrefixOf]
  | cons p ps =>
    have hpre : (p :: ps).isPrefixOf ((p :: ps) ++ rest) = true := by
      rw [List.isPrefixOf_iff_prefix]
      exact List.prefix_append _ _
    have hdrop : ((p :: ps) ++ rest).drop (p :: ps).length = rest := List.drop_left _ _
    show replaceFirstAux (p :: ps) rep before (p :: (ps ++ rest)) = _
    unfold replaceFirstAux
    rw [show p :: (ps ++ rest) = (p :: ps) ++ rest from rfl, hpre]
    simp only [if_true, hdrop]

/-! ## Claim C3: placeholder substitution replaces only the first occurrence -/

/-- A matched node with a single attribute `href="x"`. -/
def elHref : DOMNode := .mk "a" [("href", "x")] []

/-- A target descriptor whose attribute value contains the token
`${href}` twice. -/
def dC3 : Desc := ⟨"button", none, [], [("onclick", some "$\x7bhref\x7d$\x7bhref\x7d")]⟩

/-- C3, counterexample: the claim says every occurrence of `${href}` is
replaced, which would give `"xx"`; the engine's `String.replace` with a
string pattern replaces only the first occurrence, leaving
`"x${href}"`. -/
theorem c3_counterexample :
    getAttribute (convertTagsTarget elHref dC3) "onclick" = some "x$\x7bhref\x7d" ∧
    ("x$\x7bhref\x7d" : String) ≠ "xx" :=
  ⟨rfl, by decide⟩

/-- C3, amended: for each attribute `name` of `el`, the substitution
pass replaces only the first occurrence of `${name}` in an attribute
value; later occurrences are left in place.  (The replacement value is
assumed free of `$` so that the `$`-patterns of `String.replace` do not
fire.) -/
theorem c3_subst_first_occurrence_amended (name val b c : String)
    (hval : '$' ∉ val.data) :
    substValue [(name, val)]
        ("$\x7b" ++ name ++ "\x7d" ++ b ++ "$\x7b" ++ name ++ "\x7d" ++ c) =
      val ++ b ++ "$\x7b" ++ name ++ "\x7d" ++ c := by
  show replaceFirst _ _ _ = _
  rw [jsOrEmpty_eq]
  unfold replaceFirst
  have hdata : ("$\x7b" ++ name ++ "\x7d" ++ b ++ "$\x7b" ++ name ++ "\x7d" ++ c).data =
      ("$\x7b" ++ name ++ "\x7d").data ++
        (b.data ++ ("$\x7b" ++ name ++ "\x7d").data ++ c.data) := by
    simp [String.data_append, List.append_assoc]
  rw [hdata, replaceFirstAux_hit]
  rw [jsGetSubstitution_no_dollar _ _ _ _ hval]
  have : (val ++ b ++ "$\x7b" ++ name ++ "\x7d" ++ c).data =
      val.data ++ (b.data ++ ("$\x7b" ++ name ++ "\x7d").data ++ c.data) := by
    simp [String.data_append, List.append_assoc]
  cases hv : val ++ b ++ "$\x7b" ++ name ++ "\x7d" ++ c with
  | mk l =>
    congr 1
    rw [hv] at this
    simpa using this.symm

/-- C3, witness for the amended theorem at a concrete input. -/
theorem c3_witness :
    '$' ∉ "x".data ∧
    substValue [("href", "x")]
        ("$\x7b" ++ "href" ++ "\x7d" ++ "-" ++ "$\x7b" ++ "href" ++ "\x7d" ++ "!") =
      "x" ++ "-" ++ "$\x7b" ++ "href" ++ "\x7d" ++ "!" :=
  ⟨by decide, c3_subst_first_occurrence_amended "href" "x" "-" "!" (by decide)⟩

/-! ## Claim C6: attribute override vs removal -/

/-- Keys of the converted node's attribute list are carried unchanged by
the substitution map. -/
theorem filter_substMap (elAttrs : List (String × String))
    (l : List (String × String)) (q : String) :
    (l.map (fun kv => (kv.1, substValue elAttrs kv.2))).filter (fun kv => kv.1 == q) =
      (l.filter (fun kv => kv.1 == q)).map (fun kv => (kv.1, substValue elAttrs kv.2)) := by
  rw [List.filter_map]
  rfl

/-- The converted node's `href` attribute before substitution, under the
two descriptor shapes of the claim. -/
theorem convert_href_lookup (el : DOMNode) (d : Desc) (w : Option String)
    (hnodup : (d.attrs.map Prod.fst).Nodup)
    (hd : d.attrs.lookup "href" = some w) :
    getAttribute (convert el d) "href" = w := by
  simp only [convert]
  rw [getAttribute_withChildren]
  simp only [createElement]
  rw [getAttribute_applyAttrFold]
  have hfil := copyFold_filter el (getAttributeNames el) d.attrs "href" (by decide)
  rw [filterKey_of_nodupKeys hnodup] at hfil
  simp only [hd] at hfil
  have hcond : ¬ ((some w = none) ∧ "href" ∈ getAttributeNames el) := by
    intro hx
    exact Option.some_ne_none w hx.1
  rw [if_neg hcond, List.append_nil] at hfil
  rw [hfil]
  cases w with
  | none => simp
  | some v => simp

/-- C6: merging a node whose only attribute is `href="x"` against a
descriptor whose attribute map carries the null sentinel for `href`
yields a node with no `href` attribute at all, while a descriptor
carrying the value `${href}` yields `href="x"` after placeholder
substitution. -/
theorem c6_href_removal_and_substitution (el : DOMNode) (d : Desc)
    (hel : el.attrs = [("href", "x")])
    (hnodup : (d.attrs.map Prod.fst).Nodup) :
    (d.attrs.lookup "href" = some none →
      getAttribute (convertTagsTarget el d) "href" = none) ∧
    (d.attrs.lookup "href" = some (some "$\x7bhref\x7d") →
      getAttribute (convertTagsTarget el d) "href" = some "x") := by
  have hconvNodup : ((convert el d).attrs.map Prod.fst).Nodup := by
    simp only [convert]
    rw [attrs_withChildren]
    exact attrsNodup_createElement _
  constructor
  · intro hd
    have hcv : getAttribute (convert el d) "href" = none :=
      convert_href_lookup el d none hnodup hd
    simp only [convertTagsTarget]
    rw [getAttribute_setAttrFold]
    rw [filter_substMap]
    simp only [getAttrs]
    have : (convert el d).attrs.filter (fun kv => kv.1 == "href") = [] := by
      rw [filterKey_of_nodupKeys hconvNodup]
      have : (convert el d).attrs.lookup "href" = none := hcv
      simp [this]
    rw [this]
    simp [hcv]
  · intro hd
    have hcv : getAttribute (convert el d) "href" = some "$\x7bhref\x7d" :=
      convert_href_lookup el d (some "$\x7bhref\x7d") hnodup hd
    simp only [convertTagsTarget]
    rw [getAttribute_setAttrFold]
    rw [filter_substMap]
    simp only [getAttrs]
    have hfil : (convert el d).attrs.filter (fun kv => kv.1 == "href") =
        [("href", "$\x7bhref\x7d")] := by
      rw [filterKey_of_nodupKeys hconvNodup]
      have : (convert el d).attrs.lookup "href" = some "$\x7bhref\x7d" := hcv
      simp [this]
    rw [hfil]
    have hsub : substValue el.attrs "$\x7bhref\x7d" = "x" := by
      rw [hel]
      rfl
    simp [hsub]

/-- A descriptor with the null sentinel for `href` (from `button(href=null)`). -/
def dC6null : Desc := ⟨"button", none, [], [("href", none)]⟩

/-- A descriptor with the placeholder value for `href`. -/
def dC6tok : Desc := ⟨"button", none, [], [("href", some "$\x7bhref\x7d")]⟩

/-- C6, witness at concrete inputs: removal and substitution both behave
as the theorem states. -/
theorem c6_witness :
    (elHref.attrs = [("href", "x")] ∧
      getAttribute (convertTagsTarget elHref dC6null) "href" = none) ∧
    getAttribute (convertTagsTarget elHref dC6tok) "href" = some "x" :=
  ⟨⟨rfl, (c6_href_removal_and_substitution elHref dC6null rfl (by decide)).1 rfl⟩,
    (c6_href_removal_and_substitution elHref dC6tok rfl (by decide)).2 rfl⟩

/-! ## `arrayUnique` lemmas -/

theorem arrayUnique_mem (ar : List String) (a : String) :
    a ∈ arrayUnique ar ↔ a ∈ ar := by
  unfold arrayUnique
  simp only [List.mem_map, List.mem_filter]
  constructor
  · rintro ⟨⟨i, x⟩, ⟨hmem, _⟩, rfl⟩
    exact List.get?_mem (List.mem_enum_iff_get?.mp hmem)
  · intro ha
    refine ⟨(ar.indexOf a, a), ⟨?_, ?_⟩, rfl⟩
    · rw [List.mem_enum_iff_get?]
      have hlt : ar.indexOf a < ar.length := List.indexOf_lt_length.mpr ha
      rw [List.get?_eq_get hlt]
      rw [List.indexOf_get hlt]
    · simp

theorem arrayUnique_nodup (ar : List String) : (arrayUnique ar).Nodup := by
  unfold arrayUnique
  have henum : ar.enum.Nodup :=
    List.Nodup.of_map Prod.fst (List.nodup_enum_map_fst ar)
  refine List.Nodup.map_on ?_ (List.Nodup.filter _ henum)
  rintro ⟨i, x⟩ hx ⟨j, y⟩ hy hxy
  simp only [List.mem_filter] at hx hy
  have hi : ar.indexOf x = i := by simpa using hx.2
  have hj : ar.indexOf y = j := by simpa using hy.2
  simp only at hxy
  subst hxy
  rw [← hi, ← hj]

/-! ## Class-token lemmas (DOMTokenList model) -/

/-- A usable class token: nonempty and whitespace-free (`classList.add`
would throw on anything else, and parsed identifiers satisfy this). -/
def validTok (s : String) : Prop :=
  s.data ≠ [] ∧ ∀ ch ∈ s.data, isSpaceChar ch = false

instance (s : String) : Decidable (validTok s) := by
  unfold validTok
  infer_instance

theorem tokenize_valid (l : List Char) (cur : List Char)
    (hcur : ∀ ch ∈ cur, isSpaceChar ch = false) :
    ∀ t ∈ tokenize cur l, t ≠ [] ∧ ∀ ch ∈ t, isSpaceChar ch = false := by
  induction l generalizing cur with
  | nil =>
    intro t ht
    unfold tokenize at ht
    by_cases hc : cur = []
    · simp [hc] at ht
    · simp only [hc, if_false] at ht
      simp only [List.mem_singleton] at ht
      subst ht
      exact ⟨hc, hcur⟩
  | cons c cs ih =>
    intro t ht
    unfold tokenize at ht
    by_cases hsp : isSpaceChar c = true
    · simp only [hsp, if_true] at ht
      by_cases hc : cur = []
      · simp only [hc, if_true] at ht
        exact ih [] (by intro ch h; simp at h) t ht
      · simp only [hc, if_false, List.mem_cons] at ht
        rcases ht with rfl | ht
        · exact ⟨hc, hcur⟩
        · exact ih [] (by intro ch h; simp at h) t ht
    · simp only [hsp, if_false] at ht
      refine ih (cur ++ [c]) ?_ t ht
      intro ch hch
      rcases List.mem_append.mp hch with h | h
      · exact hcur ch h
      · simp only [List.mem_singleton] at h
        subst h
        simpa using hsp

theorem tokenize_no_sep (l cur : List Char)
    (hl : ∀ ch ∈ l, isSpaceChar ch = false) :
    tokenize cur l = if cur ++ l = [] then [] else [cur ++ l] := by
  induction l generalizing cur with
  | nil => simp [tokenize]
  | cons c cs ih =>
    have hc : isSpaceChar c = false := hl c (List.mem_cons_self c cs)
    unfold tokenize
    rw [hc]
    simp only [Bool.false_eq_true, if_false]
    rw [ih (cur ++ [c]) (fun ch h => hl ch (List.mem_cons_of_mem c h))]
    have h1 : cur ++ [c] ++ cs ≠ [] := by simp
    have h2 : cur ++ c :: cs ≠ [] := by simp
    simp only [h1, h2, if_false]
    simp [List.append_assoc]

theorem tokenize_append_sep (l₁ : List Char) (l₂ : List Char) (cur : List Char)
    (hl : ∀ ch ∈ l₁, isSpaceChar ch = false) (hne : cur ++ l₁ ≠ []) :
    tokenize cur (l₁ ++ ' ' :: l₂) = (cur ++ l₁) :: tokenize [] l₂ := by
  induction l₁ generalizing cur with
  | nil =>
    simp only [List.nil_append]
    unfold tokenize
    have : isSpaceChar ' ' = true := by decide
    rw [this]
    simp only [if_true]
    simp only [List.append_nil] at hne
    simp only [hne, if_false, List.append_nil]
    refine congrArg (cur :: ·) ?_
    cases l₂ with
    | nil => rfl
    | cons d ds => simp [tokenize]
  | cons c cs ih =>
    have hc : isSpaceChar c = false := hl c (List.mem_cons_self c cs)
    show tokenize cur (c :: (cs ++ ' ' :: l₂)) = _
    unfold tokenize
    rw [hc]
    simp only [Bool.false_eq_true, if_false]
    rw [ih (cur ++ [c]) (fun ch h => hl ch (List.mem_cons_of_mem c h)) (by simp)]
    simp only [List.append_assoc, List.singleton_append]
    refine congrArg ((cur ++ c :: cs) :: ·) ?_
    cases l₂ with
    | nil => simp [tokenize]
    | cons d ds => simp [tokenize]

theorem joinClasses_tokens (ts : List String) (hts : ∀ t ∈ ts, validTok t) :
    tokenize [] (joinClasses ts).data = ts.map String.data := by
  induction ts with
  | nil => rfl
  | cons t ts ih =>
    cases ts with
    | nil =>
      obtain ⟨hne, hfree⟩ := hts t (List.mem_cons_self t [])
      show tokenize [] t.data = [t.data]
      rw [tokenize_no_sep t.data [] hfree]
      simp [hne]
    | cons t' ts' =>
      obtain ⟨hne, hfree⟩ := hts t (List.mem_cons_self t _)
      have hdata : (joinClasses (t :: t' :: ts')).data =
          t.data ++ ' ' :: (joinClasses (t' :: ts')).data := by
        show (t ++ " " ++ joinClasses (t' :: ts')).data = _
        simp [String.data_append]
      rw [hdata, tokenize_append_sep t.data _ [] hfree (by simp [hne])]
      rw [ih (fun u hu => hts u (List.mem_cons_of_mem t hu))]
      simp

/-! ## Ordered-set (classList) lemmas -/

theorem dedupFirstAux_mem (l : List String) (seen : List String) (a : String) :
    a ∈ dedupFirstAux seen l ↔ a ∈ l ∧ a ∉ seen := by
  induction l generalizing seen with
  | nil => simp [dedupFirstAux]
  | cons x xs ih =>
    unfold dedupFirstAux
    by_cases hx : x ∈ seen
    · rw [if_pos hx, ih]
      constructor
      · rintro ⟨h1, h2⟩
        exact ⟨List.mem_cons_of_mem x h1, h2⟩
      · rintro ⟨h1, h2⟩
        rcases List.mem_cons.mp h1 with rfl | h1
        · exact absurd hx h2
        · exact ⟨h1, h2⟩
    · rw [if_neg hx]
      simp only [List.mem_cons, ih, List.mem_append, List.mem_singleton]
      constructor
      · rintro (rfl | ⟨h1, h2⟩)
        · exact ⟨Or.inl rfl, hx⟩
        · exact ⟨Or.inr h1, fun hs => h2 (Or.inl hs)⟩
      · rintro ⟨rfl | h1, h2⟩
        · exact Or.inl rfl
        · by_cases hax : a = x
          · exact Or.inl hax
          · refine Or.inr ⟨h1, fun hs => ?_⟩
            rcases hs with h | h
            · exact h2 h
            · simp only [List.mem_singleton, List.mem_nil_iff, or_false] at h
              exact hax h

theorem dedupFirstAux_nodup (l : List String) (seen : List String) :
    (dedupFirstAux seen l).Nodup := by
  induction l generalizing seen with
  | nil => exact List.nodup_nil
  | cons x xs ih =>
    unfold dedupFirstAux
    by_cases hx : x ∈ seen
    · rw [if_pos hx]; exact ih seen
    · rw [if_neg hx]
      refine List.nodup_cons.mpr ⟨?_, ih (seen ++ [x])⟩
      intro hmem
      rcases (dedupFirstAux_mem xs (seen ++ [x]) x).mp hmem with ⟨_, h2⟩
      exact h2 (by simp)

theorem dedupFirst_mem (l : List String) (a : String) :
    a ∈ dedupFirst l ↔ a ∈ l := by
  unfold dedupFirst
  rw [dedupFirstAux_mem]
  simp

theorem dedupFirst_nodup (l : List String) : (dedupFirst l).Nodup :=
  dedupFirstAux_nodup l []

theorem dedupFirstAux_of_nodup (l : List String) (seen : List String)
    (h : l.Nodup) (hdisj : ∀ a ∈ l, a ∉ seen) : dedupFirstAux seen l = l := by
  induction l generalizing seen with
  | nil => rfl
  | cons x xs ih =>
    unfold dedupFirstAux
    rw [if_neg (hdisj x (List.mem_cons_self x xs))]
    rw [List.nodup_cons] at h
    refine congrArg (x :: ·) (ih (seen ++ [x]) h.2 ?_)
    intro a ha hmem
    rcases List.mem_append.mp hmem with hs | hs
    · exact hdisj a (List.mem_cons_of_mem x ha) hs
    · simp only [List.mem_singleton] at hs
      subst hs
      exact h.1 ha

theorem dedupFirst_of_nodup (l : List String) (h : l.Nodup) : dedupFirst l = l :=
  dedupFirstAux_of_nodup l [] h (by intro a _ hm; simp at hm)

/-- `classListOf` only looks at the `class` attribute. -/
theorem classListOf_congr {n n' : DOMNode}
    (h : getAttribute n "class" = getAttribute n' "class") :
    classListOf n = classListOf n' := by
  unfold classListOf
  rw [h]

/-- A node without a `class` attribute has an empty class list. -/
theorem classListOf_of_none {n : DOMNode} (h : getAttribute n "class" = none) :
    classListOf n = [] := by
  unfold classListOf
  rw [h]
  rfl

/-- The class list of a node whose `class` attribute is the
serialization of a duplicate-free list of valid tokens. -/
theorem classListOf_of_join {n : DOMNode} {ts : List String}
    (h : getAttribute n "class" = some (joinClasses ts))
    (hval : ∀ t ∈ ts, validTok t) (hnd : ts.Nodup) :
    classListOf n = ts := by
  unfold classListOf
  rw [h]
  simp only [Option.getD_some]
  rw [joinClasses_tokens ts hval]
  have hmk : (ts.map String.data).map (fun t => (⟨t⟩ : String)) = ts := by
    rw [List.map_map]
    have : ((fun t => (⟨t⟩ : String)) ∘ String.data) = id := by
      funext s
      cases s
      rfl
    rw [this, List.map_id]
  rw [hmk]
  exact dedupFirst_of_nodup ts hnd

/-- The classes of the class list of any node are valid tokens. -/
theorem classListOf_valid (n : DOMNode) : ∀ t ∈ classListOf n, validTok t := by
  unfold classListOf
  intro t ht
  rw [dedupFirst_mem] at ht
  obtain ⟨u, hu, rfl⟩ := List.mem_map.mp ht
  have := tokenize_valid ((getAttribute n "class").getD "").data [] (by intro ch h; simp at h) u hu
  exact ⟨by simpa using this.1, by simpa using this.2⟩

/-! ## `classList.add` invariant -/

/-- The token-level effect of one `classList.add`. -/
def addTok (toks : List String) (c : String) : List String :=
  if c ∈ toks then toks else toks ++ [c]

/-- The serialization invariant maintained by `classListAdd`: the class
list reads back the token list, tokens are valid and duplicate-free. -/
def ClassInv (n : DOMNode) (toks : List String) : Prop :=
  classListOf n = toks ∧ (∀ t ∈ toks, validTok t) ∧ toks.Nodup

theorem classInv_add {n : DOMNode} {toks : List String} (c : String)
    (h : ClassInv n toks) (hc : validTok c) :
    ClassInv (classListAdd n c) (addTok toks c) := by
  obtain ⟨hcl, hval, hnd⟩ := h
  unfold classListAdd addTok
  rw [hcl]
  by_cases hmem : c ∈ toks
  · rw [if_pos hmem, if_pos hmem]
    exact ⟨hcl, hval, hnd⟩
  · rw [if_neg hmem, if_neg hmem]
    have hval' : ∀ t ∈ toks ++ [c], validTok t := by
      intro t ht
      rcases List.mem_append.mp ht with h | h
      · exact hval t h
      · simp only [List.mem_singleton] at h
        subst h
        exact hc
    have hnd' : (toks ++ [c]).Nodup := by
      refine List.Nodup.append hnd (by simp) ?_
      intro x hx hxc
      simp only [List.mem_singleton] at hxc
      subst hxc
      exact hmem hx
    refine ⟨?_, hval', hnd'⟩
    refine classListOf_of_join ?_ hval' hnd'
    rw [getAttribute_setAttribute]
    simp

theorem classInv_fold {cs : List String} {n : DOMNode} {toks : List String}
    (h : ClassInv n toks) (hcs : ∀ c ∈ cs, validTok c) :
    ClassInv (cs.foldl classListAdd n) (cs.foldl addTok toks) := by
  induction cs generalizing n toks with
  | nil => exact h
  | cons c cs ih =>
    rw [List.foldl_cons, List.foldl_cons]
    exact ih (classInv_add c h (hcs c (List.mem_cons_self c cs)))
      (fun u hu => hcs u (List.mem_cons_of_mem c hu))

theorem addTok_fold_mem (cs : List String) (toks : List String) (a : String) :
    a ∈ cs.foldl addTok toks ↔ a ∈ toks ∨ a ∈ cs := by
  induction cs generalizing toks with
  | nil => simp
  | cons c cs ih =>
    rw [List.foldl_cons, ih]
    unfold addTok
    by_cases hc : c ∈ toks
    · rw [if_pos hc]
      constructor
      · rintro (h | h)
        · exact Or.inl h
        · exact Or.inr (List.mem_cons_of_mem c h)
      · rintro (h | h)
        · exact Or.inl h
        · rcases List.mem_cons.mp h with rfl | h
          · exact Or.inl hc
          · exact Or.inr h
    · rw [if_neg hc]
      simp only [List.mem_append, List.mem_singleton, List.mem_cons]
      tauto

/-! ## Claim C7: class dedup on merge -/

/-- C7, amended: when the target descriptor's attribute map has no
explicit `class` key and its classes are usable tokens, the merged
node's class list is duplicate-free and is, as a set, the union of
`el`'s classes and the descriptor's classes. -/
theorem c7_class_dedup_amended (el : DOMNode) (d : Desc)
    (hclass : d.attrs.lookup "class" = none)
    (hval : ∀ c ∈ d.classes, validTok c) :
    (classListOf (convert el d)).Nodup ∧
    ∀ a, a ∈ classListOf (convert el d) ↔ (a ∈ classListOf el ∨ a ∈ d.classes) := by
  simp only [convert]
  set classes' := arrayUnique (d.classes ++ classListOf el) with hclasses'
  have hval' : ∀ c ∈ classes', validTok c := by
    intro c hc
    rw [hclasses', arrayUnique_mem] at hc
    rcases List.mem_append.mp hc with h | h
    · exact hval c h
    · exact classListOf_valid el c h
  -- the fresh element before the class loop has no class attribute
  have hinvBase : ClassInv (match d.id with
      | some v => setAttribute (DOMNode.mk d.tag [] []) "id" v
      | none => DOMNode.mk d.tag [] []) [] := by
    refine ⟨classListOf_of_none ?_, by intro t ht; simp at ht, List.nodup_nil⟩
    cases hd : d.id with
    | none => rfl
    | some v =>
      rw [getAttribute_setAttribute]
      simp [getAttribute, DOMNode.attrs, List.lookup]
  have hinv := classInv_fold hinvBase hval'
  -- the attribute loop does not touch the class attribute
  have hcopy : (((getAttributeNames el).foldl (copyElAttr el) d.attrs).lookup "class") = none := by
    rw [copyFold_lookup]
    simp [hclass]
  simp only [createElement]
  have hfold : ∀ n : DOMNode,
      getAttribute ((((getAttributeNames el).foldl (copyElAttr el) d.attrs)).foldl applyAttrEntry n) "class" =
        getAttribute n "class" := by
    intro n
    rw [getAttribute_applyAttrFold]
    rw [filterKey_nil_of_lookup_none hcopy]
    rfl
  obtain ⟨hcl, _, hnd⟩ := hinv
  have hclfinal : classListOf
      ((((getAttributeNames el).foldl (copyElAttr el) d.attrs)).foldl applyAttrEntry
        (classes'.foldl classListAdd (match d.id with
          | some v => setAttribute (DOMNode.mk d.tag [] []) "id" v
          | none => DOMNode.mk d.tag [] []))) = classes'.foldl addTok [] := by
    rw [classListOf_congr (hfold _), hcl]
  constructor
  · rw [classListOf_congr (getAttribute_withChildren _ _ "class")]
    rw [hclfinal]
    exact hnd
  · intro a
    rw [classListOf_congr (getAttribute_withChildren _ _ "class")]
    rw [hclfinal]
    rw [addTok_fold_mem]
    simp only [List.not_mem_nil, false_or]
    rw [hclasses', arrayUnique_mem, List.mem_append]
    tauto

/-- A matched node with class `a`. -/
def elC7 : DOMNode := .mk "a" [("class", "a")] []

/-- A target descriptor with an explicit `class` attribute entry, as
parsed from `div(class=b)`. -/
def dC7 : Desc := ⟨"div", none, [], [("class", some "b")]⟩

/-- C7, counterexample: the claim quantifies over every target
descriptor, but a descriptor carrying an explicit `class` attribute
entry overwrites the merged class list (`setAttribute` runs after the
`classList.add` loop), so the union property fails: `el`'s class `a` is
not in the built node's class list. -/
theorem c7_counterexample :
    "a" ∈ classListOf elC7 ∧
    classListOf (convert elC7 dC7) = ["b"] ∧
    "a" ∉ classListOf (convert elC7 dC7) :=
  ⟨by decide, rfl, by decide⟩

/-- C7, witness for the amended theorem at a concrete input: classes
`["a","b"]` on the node merged with `["b","c"]` from the descriptor give
the duplicate-free set `{a, b, c}`. -/
theorem c7_witness :
    (let el : DOMNode := .mk "ul" [("class", "a b")] []
     let d : Desc := ⟨"ul", none, ["b", "c"], []⟩
     d.attrs.lookup "class" = none ∧ (∀ c ∈ d.classes, validTok c) ∧
       (classListOf (convert el d)).Nodup ∧
       ∀ a, a ∈ classListOf (convert el d) ↔ (a ∈ classListOf el ∨ a ∈ d.classes)) := by
  refine ⟨rfl, by decide, ?_⟩
  exact c7_class_dedup_amended (.mk "ul" [("class", "a b")] []) ⟨"ul", none, ["b", "c"], []⟩
    rfl (by decide)

/-! ## Fuel monotonicity

Each loop's result is stable under giving it more fuel. -/

theorem eatblanks_mono {f g : Nat} (hle : f ≤ g) {st st' : PState}
    (h : eatblanks f st = some st') : eatblanks g st = some st' := by
  induction f generalizing g st with
  | zero => simp [eatblanks] at h
  | succ f ih =>
    obtain ⟨g, rfl⟩ := Nat.exists_eq_add_of_le hle
    unfold eatblanks at h
    rw [show f + 1 + g = (f + g) + 1 from by omega]
    unfold eatblanks
    by_cases hb : isBlankChar st.c = true
    · rw [hb] at h ⊢
      simp only [if_true] at h ⊢
      exact ih (Nat.le_add_right f g) h
    · simp only [Bool.not_eq_true] at hb
      rw [hb] at h ⊢
      simpa using h

theorem getAttrLoop_mono {f g : Nat} (hle : f ≤ g) {attr st out}
    (h : getAttrLoop f attr st = some out) : getAttrLoop g attr st = some out := by
  induction f generalizing g attr st with
  | zero => simp [getAttrLoop] at h
  | succ f ih =>
    obtain ⟨g, rfl⟩ := Nat.exists_eq_add_of_le hle
    rw [show f + 1 + g = (f + g) + 1 from by omega]
    unfold getAttrLoop at h ⊢
    cases hp : pnext st with
    | mk o st' =>
      rw [hp] at h
      cases o with
      | none => exact h
      | some ch =>
        have h' : (if isIdentChar ch = true then getAttrLoop f (jsAppend attr ch) st'
            else some (attr, st')) = some out := h
        show (if isIdentChar ch = true then getAttrLoop (f + g) (jsAppend attr ch) st'
            else some (attr, st')) = some out
        by_cases hid : isIdentChar ch = true
        · rw [if_pos hid] at h' ⊢
          exact ih (Nat.le_add_right f g) h'
        · rw [if_neg hid] at h' ⊢
          exact h' 

theorem getAttr_mono {f g : Nat} (hle : f ≤ g) {st out}
    (h : getAttr f st = some out) : getAttr g st = some out := by
  unfold getAttr at h ⊢
  simp only [Option.bind_eq_bind] at h ⊢
  rw [Option.bind_eq_some] at h
  obtain ⟨st1, h1, h2⟩ := h
  rw [Option.bind_eq_some]
  refine ⟨st1, eatblanks_mono hle h1, ?_⟩
  by_cases ht : testChars st1.c
  · simp only [ht, Bool.not_true, Bool.false_eq_true, if_false] at h2 ⊢
    rw [Option.bind_eq_some] at h2
    obtain ⟨⟨a2, st2⟩, h3, h4⟩ := h2
    rw [Option.bind_eq_some]
    refine ⟨(a2, st2), getAttrLoop_mono hle h3, ?_⟩
    rw [Option.bind_eq_some] at h4
    obtain ⟨st3, h5, h6⟩ := h4
    rw [Option.bind_eq_some]
    exact ⟨st3, eatblanks_mono hle h5, h6⟩
  · simp only [Bool.not_eq_true] at ht
    simp only [ht] at h2 ⊢
    exact h2

theorem getStringLoop_mono {f g : Nat} (hle : f ≤ g) {dchar str st out}
    (h : getStringLoop f dchar str st = some out) :
    getStringLoop g dchar str st = some out := by
  induction f generalizing g str st with
  | zero => simp [getStringLoop] at h
  | succ f ih =>
    obtain ⟨g, rfl⟩ := Nat.exists_eq_add_of_le hle
    rw [show f + 1 + g = (f + g) + 1 from by omega]
    unfold getStringLoop at h ⊢
    cases hp : pnext st with
    | mk o st' =>
      rw [hp] at h
      cases o with
      | none => exact h
      | some ch =>
        have h' : (if (st'.c == dchar && st'.p != some bslash) = true then some (str, st')
            else getStringLoop f dchar (str ++ ch.toString) st') = some out := h
        show (if (st'.c == dchar && st'.p != some bslash) = true then some (str, st')
            else getStringLoop (f + g) dchar (str ++ ch.toString) st') = some out
        by_cases hq : (st'.c == dchar && st'.p != some bslash) = true
        · rw [if_pos hq] at h' ⊢
          exact h'
        · rw [if_neg hq] at h' ⊢
          exact ih (Nat.le_add_right f g) h' 

theorem getString_mono {f g : Nat} (hle : f ≤ g) {st out}
    (h : getString f st = some out) : getString g st = some out := by
  unfold getString at h ⊢
  simp only [Option.bind_eq_bind] at h ⊢
  rw [Option.bind_eq_some] at h
  obtain ⟨⟨str, st1⟩, h1, h2⟩ := h
  rw [Option.bind_eq_some]
  exact ⟨(str, st1), getStringLoop_mono hle h1, h2⟩

theorem getValueBare_mono {f g : Nat} (hle : f ≤ g) {value st out}
    (h : getValueBare f value st = some out) : getValueBare g value st = some out := by
  induction f generalizing g value st with
  | zero => simp [getValueBare] at h
  | succ f ih =>
    obtain ⟨g, rfl⟩ := Nat.exists_eq_add_of_le hle
    rw [show f + 1 + g = (f + g) + 1 from by omega]
    unfold getValueBare at h ⊢
    by_cases hs : isStopChar st.c = true
    · rw [hs] at h ⊢
      simpa using h
    · simp only [Bool.not_eq_true] at hs
      rw [hs] at h ⊢
      simp only [Bool.false_eq_true, if_false] at h ⊢
      cases hp : pnext st with
      | mk o st' =>
        rw [hp] at h
        cases o with
        | none => exact h
        | some ch => exact ih (Nat.le_add_right f g) h


theorem getValue_mono {f g : Nat} (hle : f ≤ g) {st out}
    (h : getValue f st = some out) : getValue g st = some out := by
  unfold getValue at h ⊢
  simp only [Option.bind_eq_bind] at h ⊢
  rw [Option.bind_eq_some] at h
  obtain ⟨st1, h1, h2⟩ := h
  rw [Option.bind_eq_some]
  refine ⟨st1, eatblanks_mono hle h1, ?_⟩
  by_cases hq : (st1.c == some '"' || st1.c == some squote) = true
  · rw [hq] at h2 ⊢
    simp only [if_true] at h2 ⊢
    rw [Option.bind_eq_some] at h2
    obtain ⟨⟨s, st2⟩, h3, h4⟩ := h2
    rw [Option.bind_eq_some]
    refine ⟨(s, st2), getString_mono hle h3, ?_⟩
    rw [Option.bind_eq_some] at h4
    obtain ⟨st3, h5, h6⟩ := h4
    rw [Option.bind_eq_some]
    exact ⟨st3, eatblanks_mono hle h5, h6⟩
  · simp only [Bool.not_eq_true] at hq
    rw [hq] at h2 ⊢
    simp only [Bool.false_eq_true, if_false] at h2 ⊢
    rw [Option.bind_eq_some] at h2
    obtain ⟨⟨v, early, st2⟩, h3, h4⟩ := h2
    rw [Option.bind_eq_some]
    refine ⟨(v, early, st2), getValueBare_mono hle h3, ?_⟩
    cases early with
    | true => exact h4
    | false =>
      simp only [Bool.false_eq_true, if_false] at h4 ⊢
      rw [Option.bind_eq_some] at h4
      obtain ⟨st3, h5, h6⟩ := h4
      rw [Option.bind_eq_some]
      exact ⟨st3, eatblanks_mono hle h5, h6⟩

theorem classLoop_mono {f g : Nat} (hle : f ≤ g) {classes st out}
    (h : classLoop f classes st = some out) : classLoop g classes st = some out := by
  induction f generalizing g classes st with
  | zero => simp [classLoop] at h
  | succ f ih =>
    obtain ⟨g, rfl⟩ := Nat.exists_eq_add_of_le hle
    rw [show f + 1 + g = (f + g) + 1 from by omega]
    unfold classLoop at h ⊢
    by_cases hdot : st.c = some '.'
    · rw [if_pos hdot] at h ⊢
      simp only [Option.bind_eq_bind] at h ⊢
      rw [Option.bind_eq_some] at h
      obtain ⟨⟨c?, st1⟩, h1, h2⟩ := h
      rw [Option.bind_eq_some]
      refine ⟨(c?, st1), getAttr_mono (Nat.le_add_right f g) h1, ?_⟩
      cases c? with
      | none => exact h2
      | some cc => exact ih (Nat.le_add_right f g) h2
    · rw [if_neg hdot] at h ⊢
      exact h

theorem attrLoop_mono {f g : Nat} (hle : f ≤ g) {attrs st out}
    (h : attrLoop f attrs st = some out) : attrLoop g attrs st = some out := by
  induction f generalizing g attrs st with
  | zero => simp [attrLoop] at h
  | succ f ih =>
    obtain ⟨g, rfl⟩ := Nat.exists_eq_add_of_le hle
    have hfg : f ≤ f + g := Nat.le_add_right f g
    rw [show f + 1 + g = (f + g) + 1 from by omega]
    unfold attrLoop at h ⊢
    simp only [Option.bind_eq_bind] at h ⊢
    rw [Option.bind_eq_some] at h
    obtain ⟨⟨attr?, st1⟩, h1, h2⟩ := h
    rw [Option.bind_eq_some]
    refine ⟨(attr?, st1), getAttr_mono hfg h1, ?_⟩
    cases attr? with
    | none => exact h2
    | some attr =>
      simp only at h2 ⊢
      rw [Option.bind_eq_some] at h2
      obtain ⟨st2, h3, h4⟩ := h2
      rw [Option.bind_eq_some]
      refine ⟨st2, eatblanks_mono hfg h3, ?_⟩
      by_cases heq : st2.c = some '='
      · rw [if_pos heq] at h4 ⊢
        rw [Option.bind_eq_some] at h4
        obtain ⟨st4, h5, h6⟩ := h4
        rw [Option.bind_eq_some]
        refine ⟨st4, eatblanks_mono hfg h5, ?_⟩
        rw [Option.bind_eq_some] at h6
        obtain ⟨⟨value, st5⟩, h7, h8⟩ := h6
        rw [Option.bind_eq_some]
        refine ⟨(value, st5), getValue_mono hfg h7, ?_⟩
        dsimp only at h8 ⊢
        by_cases hcl : st5.c = some ')'
        · rw [if_pos hcl] at h8 ⊢
          exact h8
        · rw [if_neg hcl] at h8 ⊢
          by_cases hcm : st5.c ≠ some ','
          · rw [if_pos hcm] at h8 ⊢
            exact h8
          · rw [if_neg hcm] at h8 ⊢
            exact ih hfg h8
      · rw [if_neg heq] at h4 ⊢
        simp only [Option.pure_def, Option.some_bind] at h4 ⊢
        by_cases hcl : st2.c = some ')'
        · rw [if_pos hcl] at h4 ⊢
          exact h4
        · rw [if_neg hcl] at h4 ⊢
          by_cases hcm : st2.c ≠ some ','
          · rw [if_pos hcm] at h4 ⊢
            exact h4
          · rw [if_neg hcm] at h4 ⊢
            exact ih hfg h4

theorem parseAttrsPart_mono {f g : Nat} (hle : f ≤ g) {st out}
    (h : parseAttrsPart f st = some out) : parseAttrsPart g st = some out := by
  unfold parseAttrsPart at h ⊢
  by_cases hp : st.c = some '('
  · rw [if_pos hp] at h ⊢
    simp only [Option.bind_eq_bind] at h ⊢
    rw [Option.bind_eq_some] at h
    obtain ⟨⟨r, st1⟩, h1, h2⟩ := h
    rw [Option.bind_eq_some]
    exact ⟨(r, st1), attrLoop_mono hle h1, h2⟩
  · rw [if_neg hp] at h ⊢
    exact h

theorem parseSegmentRest_mono {f g : Nat} (hle : f ≤ g) {tag id st out}
    (h : parseSegmentRest f tag id st = some out) :
    parseSegmentRest g tag id st = some out := by
  unfold parseSegmentRest at h ⊢
  simp only [Option.bind_eq_bind] at h ⊢
  rw [Option.bind_eq_some] at h
  obtain ⟨⟨cls?, st1⟩, h1, h2⟩ := h
  rw [Option.bind_eq_some]
  refine ⟨(cls?, st1), classLoop_mono hle h1, ?_⟩
  cases cls? with
  | none => exact h2
  | some classes =>
    simp only at h2 ⊢
    rw [Option.bind_eq_some] at h2
    obtain ⟨⟨attrs?, st2⟩, h3, h4⟩ := h2
    rw [Option.bind_eq_some]
    refine ⟨(attrs?, st2), parseAttrsPart_mono hle h3, ?_⟩
    cases attrs? with
    | none => exact h4
    | some attrs =>
      simp only at h4 ⊢
      rw [Option.bind_eq_some] at h4
      obtain ⟨st3, h5, h6⟩ := h4
      rw [Option.bind_eq_some]
      exact ⟨st3, eatblanks_mono hle h5, h6⟩

theorem parseSegment_mono {f g : Nat} (hle : f ≤ g) {st out}
    (h : parseSegment f st = some out) : parseSegment g st = some out := by
  unfold parseSegment at h ⊢
  simp only [Option.bind_eq_bind] at h ⊢
  rw [Option.bind_eq_some] at h
  obtain ⟨⟨tag?, st1⟩, h1, h2⟩ := h
  rw [Option.bind_eq_some]
  refine ⟨(tag?, st1), getAttr_mono hle h1, ?_⟩
  by_cases hh : st1.c = some '#'
  · rw [if_pos hh] at h2 ⊢
    simp only [Option.bind_eq_bind] at h2 ⊢
    rw [Option.bind_eq_some] at h2
    obtain ⟨⟨id?, st2⟩, h3, h4⟩ := h2
    rw [Option.bind_eq_some]
    refine ⟨(id?, st2), getAttr_mono hle h3, ?_⟩
    cases id? with
    | none => exact h4
    | some id => exact parseSegmentRest_mono hle h4
  · rw [if_neg hh] at h2 ⊢
    exact parseSegmentRest_mono hle h2

theorem chainLoop_mono {f g : Nat} (hle : f ≤ g) {results st out}
    (h : chainLoop f results st = some out) : chainLoop g results st = some out := by
  induction f generalizing g results st with
  | zero => simp [chainLoop] at h
  | succ f ih =>
    obtain ⟨g, rfl⟩ := Nat.exists_eq_add_of_le hle
    rw [show f + 1 + g = (f + g) + 1 from by omega]
    unfold chainLoop at h ⊢
    simp only [Option.bind_eq_bind] at h ⊢
    rw [Option.bind_eq_some] at h
    obtain ⟨⟨d?, st1⟩, h1, h2⟩ := h
    rw [Option.bind_eq_some]
    refine ⟨(d?, st1), parseSegment_mono (Nat.le_add_right f g) h1, ?_⟩
    cases d? with
    | none => exact h2
    | some d =>
      simp only at h2 ⊢
      by_cases hn : st1.c = none
      · rw [if_pos hn] at h2 ⊢
        exact h2
      · rw [if_neg hn] at h2 ⊢
        by_cases hgt : st1.c ≠ some '>'
        · rw [if_pos hgt] at h2 ⊢
          exact h2
        · rw [if_neg hgt] at h2 ⊢
          exact ih (Nat.le_add_right f g) h2

/-! ## Fuel sufficiency: every loop strictly advances the input

`pmeasure` bounds the work left: twice the unread length, plus one when
a current character is still buffered. -/

/-- The termination measure of a parser state. -/
def pmeasure (st : PState) : Nat :=
  2 * st.rest.length + (if st.c.isSome then 1 else 0)

theorem pnext_measure_le (st : PState) : pmeasure (pnext st).2 ≤ pmeasure st := by
  unfold pnext pmeasure
  cases hr : st.rest with
  | nil => cases hc : st.c <;> simp
  | cons ch rs => cases hc : st.c <;> simp <;> omega

theorem pnext_measure_lt_of_some (st : PState) (h : st.c.isSome = true) :
    pmeasure (pnext st).2 < pmeasure st := by
  unfold pnext pmeasure
  cases hr : st.rest with
  | nil => cases hc : st.c <;> simp_all
  | cons ch rs => cases hc : st.c <;> simp_all <;> omega

theorem pnext_measure_lt_of_ne_nil (st : PState) (h : st.rest ≠ []) :
    pmeasure (pnext st).2 < pmeasure st := by
  unfold pnext pmeasure
  cases hr : st.rest with
  | nil => exact absurd hr h
  | cons ch rs => cases hc : st.c <;> simp <;> omega

theorem pnext_measure_lt_of_pos (st : PState) (h : 0 < pmeasure st) :
    pmeasure (pnext st).2 < pmeasure st := by
  cases hc : st.c with
  | some ch => exact pnext_measure_lt_of_some st (by rw [hc]; rfl)
  | none =>
    refine pnext_measure_lt_of_ne_nil st ?_
    intro hnil
    unfold pmeasure at h
    rw [hc, hnil] at h
    simp at h

theorem pmeasure_syntaxError (st : PState) (msg : String) :
    pmeasure (syntaxError st msg) = pmeasure st := rfl

theorem eatblanks_suff (f : Nat) (st : PState) (h : pmeasure st < f) :
    ∃ st', eatblanks f st = some st' ∧ pmeasure st' ≤ pmeasure st := by
  induction f generalizing st with
  | zero => omega
  | succ f ih =>
    unfold eatblanks
    by_cases hb : isBlankChar st.c = true
    · rw [hb]
      simp only [if_true]
      have hsome : st.c.isSome = true := by
        cases hc : st.c with
        | none => rw [hc] at hb; simp [isBlankChar] at hb
        | some ch => rfl
      have hlt := pnext_measure_lt_of_some st hsome
      obtain ⟨st', h1, h2⟩ := ih (pnext st).2 (by omega)
      exact ⟨st', h1, by omega⟩
    · simp only [Bool.not_eq_true] at hb
      rw [hb]
      exact ⟨st, by simp, le_refl _⟩

theorem getAttrLoop_suff (f : Nat) (attr : Option String) (st : PState)
    (h : pmeasure st < f) :
    ∃ a st', getAttrLoop f attr st = some (a, st') ∧ pmeasure st' ≤ pmeasure st ∧
      (st.c.isSome = true → pmeasure st' < pmeasure st) ∧
      (a = attr ∨ pmeasure st' < pmeasure st) := by
  induction f generalizing attr st with
  | zero => omega
  | succ f ih =>
    unfold getAttrLoop
    cases hp : pnext st with
    | mk o st1 =>
      cases o with
      | none =>
        refine ⟨attr, st1, rfl, ?_, ?_, Or.inl rfl⟩
        · have := pnext_measure_le st
          rw [hp] at this
          exact this
        · intro hsome
          have := pnext_measure_lt_of_some st hsome
          rw [hp] at this
          exact this
      | some ch =>
        have hne : st.rest ≠ [] := by
          intro hnil
          unfold pnext at hp
          rw [hnil] at hp
          simp at hp
        have hlt : pmeasure st1 < pmeasure st := by
          have := pnext_measure_lt_of_ne_nil st hne
          rw [hp] at this
          exact this
        show ∃ a st',
            (if isIdentChar ch = true then getAttrLoop f (jsAppend attr ch) st1
             else some (attr, st1)) = some (a, st') ∧ _
        by_cases hid : isIdentChar ch = true
        · rw [if_pos hid]
          obtain ⟨a, st', h1, h2, _, _⟩ := ih (jsAppend attr ch) st1 (by omega)
          exact ⟨a, st', h1, by omega, fun _ => by omega, Or.inr (by omega)⟩
        · rw [if_neg hid]
          exact ⟨attr, st1, rfl, by omega, fun _ => hlt, Or.inl rfl⟩

theorem getAttr_suff (f : Nat) (st : PState) (h : pmeasure st < f) :
    ∃ a st', getAttr f st = some (a, st') ∧ pmeasure st' ≤ pmeasure st ∧
      (a.isSome = true → pmeasure st' < pmeasure st) := by
  obtain ⟨st1, he1, hm1⟩ := eatblanks_suff f st h
  unfold getAttr
  simp only [Option.bind_eq_bind]
  rw [he1, Option.some_bind]
  by_cases ht : testChars st1.c
  · simp only [ht, Bool.not_true, Bool.false_eq_true, if_false]
    obtain ⟨a, st2, h1, h2, h3, h4⟩ := getAttrLoop_suff f (st1.c.map Char.toString) st1 (by omega)
    rw [h1, Option.some_bind]
    obtain ⟨st3, h5, h6⟩ := eatblanks_suff f st2 (by omega)
    rw [h5, Option.some_bind]
    refine ⟨a, st3, rfl, by omega, ?_⟩
    intro hsome
    rcases h4 with heq | hlt
    · subst heq
      have : st1.c.isSome = true := by
        cases hc : st1.c with
        | none => rw [hc] at hsome; simp at hsome
        | some ch => rfl
      have := h3 this
      omega
    · omega
  · simp only [Bool.not_eq_true] at ht
    simp only [ht]
    refine ⟨none, st1, rfl, hm1, ?_⟩
    intro hsome
    simp at hsome

theorem getStringLoop_suff (f : Nat) (dchar : Option Char) (str : String) (st : PState)
    (h : pmeasure st < f) :
    ∃ s st', getStringLoop f dchar str st = some (s, st') ∧ pmeasure st' ≤ pmeasure st := by
  induction f generalizing str st with
  | zero => omega
  | succ f ih =>
    unfold getStringLoop
    cases hp : pnext st with
    | mk o st1 =>
      have hle : pmeasure st1 ≤ pmeasure st := by
        have := pnext_measure_le st
        rw [hp] at this
        exact this
      cases o with
      | none => exact ⟨str, st1, rfl, hle⟩
      | some ch =>
        have hne : st.rest ≠ [] := by
          intro hnil
          unfold pnext at hp
          rw [hnil] at hp
          simp at hp
        have hlt : pmeasure st1 < pmeasure st := by
          have := pnext_measure_lt_of_ne_nil st hne
          rw [hp] at this
          exact this
        show ∃ s st',
            (if (st1.c == dchar && st1.p != some bslash) = true then some (str, st1)
             else getStringLoop f dchar (str ++ ch.toString) st1) = some (s, st') ∧ _
        by_cases hq : (st1.c == dchar && st1.p != some bslash) = true
        · rw [if_pos hq]
          exact ⟨str, st1, rfl, hle⟩
        · rw [if_neg hq]
          obtain ⟨s, st', h1, h2⟩ := ih (str ++ ch.toString) st1 (by omega)
          exact ⟨s, st', h1, by omega⟩

theorem getString_suff (f : Nat) (st : PState) (h : pmeasure st < f) :
    ∃ s st', getString f st = some (s, st') ∧ pmeasure st' ≤ pmeasure st := by
  obtain ⟨s, st1, h1, h2⟩ := getStringLoop_suff f st.c "" st h
  unfold getString
  simp only [Option.bind_eq_bind]
  rw [h1, Option.some_bind]
  dsimp only
  refine ⟨s, _, rfl, ?_⟩
  have hse : pmeasure (if st1.c = none then syntaxError st1 "unclosed quote" else st1) =
      pmeasure st1 := by
    by_cases hn : st1.c = none
    · rw [if_pos hn]
      rfl
    · rw [if_neg hn]
  have := pnext_measure_le (if st1.c = none then syntaxError st1 "unclosed quote" else st1)
  omega

theorem getValueBare_suff (f : Nat) (value : String) (st : PState)
    (h : pmeasure st < f) :
    ∃ v e st', getValueBare f value st = some (v, e, st') ∧ pmeasure st' ≤ pmeasure st := by
  induction f generalizing value st with
  | zero => omega
  | succ f ih =>
    unfold getValueBare
    by_cases hs : isStopChar st.c = true
    · rw [hs]
      simp only [if_true]
      exact ⟨value, false, st, rfl, le_refl _⟩
    · simp only [Bool.not_eq_true] at hs
      rw [hs]
      simp only [Bool.false_eq_true, if_false]
      cases hp : pnext st with
      | mk o st1 =>
        have hle : pmeasure st1 ≤ pmeasure st := by
          have := pnext_measure_le st
          rw [hp] at this
          exact this
        cases o with
        | none => exact ⟨value ++ jsCharVal st.c, true, st1, rfl, hle⟩
        | some ch =>
          have hne : st.rest ≠ [] := by
            intro hnil
            unfold pnext at hp
            rw [hnil] at hp
            simp at hp
          have hlt : pmeasure st1 < pmeasure st := by
            have := pnext_measure_lt_of_ne_nil st hne
            rw [hp] at this
            exact this
          obtain ⟨v, e, st', h1, h2⟩ := ih (value ++ jsCharVal st.c) st1 (by omega)
          exact ⟨v, e, st', h1, by omega⟩

theorem getValue_suff (f : Nat) (st : PState) (h : pmeasure st < f) :
    ∃ v st', getValue f st = some (v, st') ∧ pmeasure st' ≤ pmeasure st := by
  obtain ⟨st1, he1, hm1⟩ := eatblanks_suff f st h
  unfold getValue
  simp only [Option.bind_eq_bind]
  rw [he1, Option.some_bind]
  by_cases hq : (st1.c == some '"' || st1.c == some squote) = true
  · rw [hq]
    simp only [if_true]
    obtain ⟨s, st2, h1, h2⟩ := getString_suff f st1 (by omega)
    rw [h1, Option.some_bind]
    obtain ⟨st3, h3, h4⟩ := eatblanks_suff f st2 (by omega)
    rw [h3, Option.some_bind]
    exact ⟨some s, st3, rfl, by omega⟩
  · simp only [Bool.not_eq_true] at hq
    rw [hq]
    simp only [Bool.false_eq_true, if_false]
    obtain ⟨v, e, st2, h1, h2⟩ := getValueBare_suff f "" st1 (by omega)
    rw [h1, Option.some_bind]
    cases e with
    | true => exact ⟨some v, st2, rfl, by omega⟩
    | false =>
      simp only [Bool.false_eq_true, if_false]
      obtain ⟨st3, h3, h4⟩ := eatblanks_suff f st2 (by omega)
      rw [h3, Option.some_bind]
      exact ⟨_, st3, rfl, by omega⟩

theorem classLoop_suff (f : Nat) (classes : List String) (st : PState)
    (h : pmeasure st < f) :
    ∃ r st', classLoop f classes st = some (r, st') ∧ pmeasure st' ≤ pmeasure st := by
  induction f generalizing classes st with
  | zero => omega
  | succ f ih =>
    unfold classLoop
    by_cases hdot : st.c = some '.'
    · rw [if_pos hdot]
      have hsome : st.c.isSome = true := by rw [hdot]; rfl
      have hlt := pnext_measure_lt_of_some st hsome
      obtain ⟨a, st1, h1, h2, h3⟩ := getAttr_suff f (pnext st).2 (by omega)
      simp only [Option.bind_eq_bind]
      rw [h1, Option.some_bind]
      cases a with
      | none =>
        dsimp only
        have hse := pmeasure_syntaxError st1 "unexpected class"
        exact ⟨none, _, rfl, by omega⟩
      | some cc =>
        dsimp only
        have hstrict := h3 rfl
        obtain ⟨r, st', h4, h5⟩ := ih (classes ++ [cc]) st1 (by omega)
        exact ⟨r, st', h4, by omega⟩
    · rw [if_neg hdot]
      exact ⟨some classes, st, rfl, le_refl _⟩

theorem attrLoop_suff (f : Nat) (attrs : List (String × Option String)) (st : PState)
    (h : pmeasure st + 1 < f) :
    ∃ r st', attrLoop f attrs st = some (r, st') ∧ pmeasure st' ≤ pmeasure st := by
  induction f generalizing attrs st with
  | zero => omega
  | succ f ih =>
    unfold attrLoop
    obtain ⟨a, st1, h1, h2, h3⟩ := getAttr_suff f st (by omega)
    simp only [Option.bind_eq_bind]
    rw [h1, Option.some_bind]
    cases a with
    | none =>
      dsimp only
      have hse := pmeasure_syntaxError st1 "unexpected attribute"
      exact ⟨none, _, rfl, by omega⟩
    | some attr =>
      dsimp only
      have hstrict := h3 rfl
      obtain ⟨st2, h4, h5⟩ := eatblanks_suff f st1 (by omega)
      rw [h4, Option.some_bind]
      by_cases heq : st2.c = some '='
      · rw [if_pos heq]
        have hsome2 : st2.c.isSome = true := by rw [heq]; rfl
        have hlt2 := pnext_measure_lt_of_some st2 hsome2
        obtain ⟨st3, h6, h7⟩ := eatblanks_suff f (pnext st2).2 (by omega)
        rw [h6, Option.some_bind]
        obtain ⟨v, st4, h8, h9⟩ := getValue_suff f st3 (by omega)
        rw [h8, Option.some_bind]
        dsimp only
        by_cases hcl : st4.c = some ')'
        · rw [if_pos hcl]
          exact ⟨some (objSet attrs attr v), st4, rfl, by omega⟩
        · rw [if_neg hcl]
          by_cases hcm : st4.c ≠ some ','
          · rw [if_pos hcm]
            have hse := pmeasure_syntaxError st4 "unexpected character"
            exact ⟨none, _, rfl, by omega⟩
          · rw [if_neg hcm]
            simp only [Decidable.not_not] at hcm
            have hsome4 : st4.c.isSome = true := by rw [hcm]; rfl
            have hlt4 := pnext_measure_lt_of_some st4 hsome4
            obtain ⟨r, st', h10, h11⟩ := ih (objSet attrs attr v) (pnext st4).2 (by omega)
            exact ⟨r, st', h10, by omega⟩
      · rw [if_neg heq]
        simp only [Option.pure_def, Option.some_bind]
        by_cases hcl : st2.c = some ')'
        · rw [if_pos hcl]
          exact ⟨some (objSet attrs attr none), st2, rfl, by omega⟩
        · rw [if_neg hcl]
          by_cases hcm : st2.c ≠ some ','
          · rw [if_pos hcm]
            have hse := pmeasure_syntaxError st2 "unexpected character"
            exact ⟨none, _, rfl, by omega⟩
          · rw [if_neg hcm]
            simp only [Decidable.not_not] at hcm
            have hsome2 : st2.c.isSome = true := by rw [hcm]; rfl
            have hlt2 := pnext_measure_lt_of_some st2 hsome2
            obtain ⟨r, st', h10, h11⟩ := ih (objSet attrs attr none) (pnext st2).2 (by omega)
            exact ⟨r, st', h10, by omega⟩

theorem parseAttrsPart_suff (f : Nat) (st : PState) (h : pmeasure st < f) :
    ∃ r st', parseAttrsPart f st = some (r, st') ∧ pmeasure st' ≤ pmeasure st := by
  unfold parseAttrsPart
  by_cases hp : st.c = some '('
  · rw [if_pos hp]
    have hsome : st.c.isSome = true := by rw [hp]; rfl
    have hlt := pnext_measure_lt_of_some st hsome
    obtain ⟨r, st1, h1, h2⟩ := attrLoop_suff f [] (pnext st).2 (by omega)
    simp only [Option.bind_eq_bind]
    rw [h1, Option.some_bind]
    cases r with
    | none => exact ⟨none, st1, rfl, by omega⟩
    | some attrs =>
      dsimp only
      by_cases hcl : st1.c ≠ some ')'
      · rw [if_pos hcl]
        have hse := pmeasure_syntaxError st1 "expected )"
        exact ⟨none, _, rfl, by omega⟩
      · rw [if_neg hcl]
        have := pnext_measure_le st1
        exact ⟨some attrs, _, rfl, by omega⟩
  · rw [if_neg hp]
    exact ⟨some [], st, rfl, le_refl _⟩

theorem parseSegmentRest_suff (f : Nat) (tag : String) (id : Option String) (st : PState)
    (h : pmeasure st < f) :
    ∃ r st', parseSegmentRest f tag id st = some (r, st') ∧ pmeasure st' ≤ pmeasure st := by
  unfold parseSegmentRest
  obtain ⟨r1, st1, h1, h2⟩ := classLoop_suff f [] st h
  simp only [Option.bind_eq_bind]
  rw [h1, Option.some_bind]
  cases r1 with
  | none => exact ⟨none, st1, rfl, h2⟩
  | some classes =>
    dsimp only
    obtain ⟨r2, st2, h3, h4⟩ := parseAttrsPart_suff f st1 (by omega)
    rw [h3, Option.some_bind]
    cases r2 with
    | none => exact ⟨none, st2, rfl, by omega⟩
    | some attrs =>
      dsimp only
      obtain ⟨st3, h5, h6⟩ := eatblanks_suff f st2 (by omega)
      rw [h5, Option.some_bind]
      exact ⟨some ⟨tag, id, classes, attrs⟩, st3, rfl, by omega⟩

theorem parseSegment_suff (f : Nat) (st : PState) (h : pmeasure st < f) :
    ∃ r st', parseSegment f st = some (r, st') ∧ pmeasure st' ≤ pmeasure st ∧
      (0 < pmeasure st → pmeasure st' < pmeasure st) := by
  unfold parseSegment
  have hp0 : pmeasure (pnext st).2 ≤ pmeasure st := pnext_measure_le st
  obtain ⟨a, st1, h1, h2, h3⟩ := getAttr_suff f (pnext st).2 (by omega)
  simp only [Option.bind_eq_bind]
  rw [h1, Option.some_bind]
  dsimp only
  have hkey : ∀ {st' : PState}, pmeasure st' ≤ pmeasure st1 →
      (pmeasure st' ≤ pmeasure st ∧ (0 < pmeasure st → pmeasure st' < pmeasure st)) := by
    intro st' hle
    constructor
    · omega
    · intro hpos
      have := pnext_measure_lt_of_pos st hpos
      omega
  by_cases hh : st1.c = some '#'
  · rw [if_pos hh]
    have hsome1 : st1.c.isSome = true := by rw [hh]; rfl
    have hlt1 := pnext_measure_lt_of_some st1 hsome1
    obtain ⟨id?, st2, h4, h5, h6⟩ := getAttr_suff f (pnext st1).2 (by omega)
    rw [h4, Option.some_bind]
    cases id? with
    | none =>
      dsimp only
      refine ⟨none, _, rfl, ?_, ?_⟩
      · have : pmeasure (syntaxError st2 "invalid ID") = pmeasure st2 := rfl
        omega
      · intro hpos
        have := pnext_measure_lt_of_pos st hpos
        have : pmeasure (syntaxError st2 "invalid ID") = pmeasure st2 := rfl
        omega
    | some id =>
      obtain ⟨r, st', h7, h8⟩ := parseSegmentRest_suff f _ (some id) st2 (by omega)
      exact ⟨r, st', h7, (hkey (by omega)).1, (hkey (by omega)).2⟩
  · rw [if_neg hh]
    obtain ⟨r, st', h7, h8⟩ := parseSegmentRest_suff f _ none st1 (by omega)
    exact ⟨r, st', h7, (hkey (by omega)).1, (hkey (by omega)).2⟩

theorem chainLoop_suff (f : Nat) (results : List Desc) (st : PState)
    (h : pmeasure st + 1 < f) :
    ∃ out, chainLoop f results st = some out := by
  induction f generalizing results st with
  | zero => omega
  | succ f ih =>
    unfold chainLoop
    obtain ⟨d?, st1, h1, h2, h3⟩ := parseSegment_suff f st (by omega)
    simp only [Option.bind_eq_bind]
    rw [h1, Option.some_bind]
    cases d? with
    | none => exact ⟨_, rfl⟩
    | some d =>
      dsimp only
      by_cases hn : st1.c = none
      · rw [if_pos hn]
        exact ⟨_, rfl⟩
      · rw [if_neg hn]
        by_cases hgt : st1.c ≠ some '>'
        · rw [if_pos hgt]
          exact ⟨_, rfl⟩
        · rw [if_neg hgt]
          simp only [Decidable.not_not] at hgt
          have hsome1 : st1.c.isSome = true := by rw [hgt]; rfl
          have hge1 : 1 ≤ pmeasure st1 := by
            unfold pmeasure
            rw [hsome1]
            simp
          have hstrict : pmeasure st1 < pmeasure st := h3 (by omega)
          obtain ⟨out, h4⟩ := ih (results ++ [d]) st1 (by omega)
          exact ⟨out, h4⟩

/-- C8: `parse` terminates on every finite input, returning a chain or a
reported error — with fuel two characters beyond twice the input length
(every scanning loop strictly advances the input position), `parseRun`
always completes. -/
theorem c8_parse_terminates (txt : List Char) : ∃ out, parseRun txt = some out := by
  unfold parseRun
  refine chainLoop_suff (parseBound txt) [] (startState txt) ?_
  unfold parseBound pmeasure startState
  simp

/-! ## Error reporting: which runs log messages -/

theorem pnext_errors (st : PState) : (pnext st).2.errors = st.errors := by
  unfold pnext
  cases st.rest <;> rfl

theorem eatblanks_errors {f : Nat} {st st' : PState} (h : eatblanks f st = some st') :
    st'.errors = st.errors := by
  induction f generalizing st with
  | zero => simp [eatblanks] at h
  | succ f ih =>
    unfold eatblanks at h
    by_cases hb : isBlankChar st.c = true
    · rw [hb] at h
      simp only [if_true] at h
      rw [ih h, pnext_errors]
    · simp only [Bool.not_eq_true] at hb
      rw [hb] at h
      simp only [Bool.false_eq_true, if_false, Option.some_inj] at h
      rw [← h]

theorem getAttrLoop_errors {f : Nat} {attr st a st'}
    (h : getAttrLoop f attr st = some (a, st')) : st'.errors = st.errors := by
  induction f generalizing attr st with
  | zero => simp [getAttrLoop] at h
  | succ f ih =>
    unfold getAttrLoop at h
    cases hp : pnext st with
    | mk o st1 =>
      rw [hp] at h
      have hp2 : st1.errors = st.errors := by
        have := pnext_errors st
        rw [hp] at this
        exact this
      cases o with
      | none =>
        simp only [Option.some_inj, Prod.mk.injEq] at h
        rw [← h.2, hp2]
      | some ch =>
        have h' : (if isIdentChar ch = true then getAttrLoop f (jsAppend attr ch) st1
            else some (attr, st1)) = some (a, st') := h
        by_cases hid : isIdentChar ch = true
        · rw [if_pos hid] at h'
          rw [ih h', hp2]
        · rw [if_neg hid] at h'
          simp only [Option.some_inj, Prod.mk.injEq] at h'
          rw [← h'.2, hp2]

theorem getAttr_errors {f : Nat} {st : PState} {a st'}
    (h : getAttr f st = some (a, st')) : st'.errors = st.errors := by
  unfold getAttr at h
  simp only [Option.bind_eq_bind] at h
  rw [Option.bind_eq_some] at h
  obtain ⟨st1, h1, h2⟩ := h
  by_cases ht : testChars st1.c
  · simp only [ht, Bool.not_true, Bool.false_eq_true, if_false] at h2
    rw [Option.bind_eq_some] at h2
    obtain ⟨⟨a2, st2⟩, h3, h4⟩ := h2
    rw [Option.bind_eq_some] at h4
    obtain ⟨st3, h5, h6⟩ := h4
    simp only [Option.pure_def, Option.some_inj, Prod.mk.injEq] at h6
    rw [← h6.2, eatblanks_errors h5, getAttrLoop_errors h3, eatblanks_errors h1]
  · simp only [Bool.not_eq_true] at ht
    simp only [ht, Bool.not_false, if_true, Option.pure_def, Option.some_inj,
      Prod.mk.injEq] at h2
    rw [← h2.2, eatblanks_errors h1]

theorem getStringLoop_errors {f : Nat} {dchar str st s st1}
    (h : getStringLoop f dchar str st = some (s, st1)) :
    st1.errors = st.errors ∧ (st1.c = none → st1.rest = []) := by
  induction f generalizing str st with
  | zero => simp [getStringLoop] at h
  | succ f ih =>
    unfold getStringLoop at h
    cases hp : pnext st with
    | mk o st2 =>
      rw [hp] at h
      have hp2 : st2.errors = st.errors := by
        have := pnext_errors st
        rw [hp] at this
        exact this
      cases o with
      | none =>
        simp only [Option.some_inj, Prod.mk.injEq] at h
        obtain ⟨rfl, rfl⟩ := h
        refine ⟨hp2, fun _ => ?_⟩
        unfold pnext at hp
        cases hr : st.rest with
        | nil =>
          rw [hr] at hp
          simp only [Prod.mk.injEq] at hp
          rw [← hp.2]
        | cons ch rs =>
          rw [hr] at hp
          simp at hp
      | some ch =>
        have h' : (if (st2.c == dchar && st2.p != some bslash) = true then some (str, st2)
            else getStringLoop f dchar (str ++ ch.toString) st2) = some (s, st1) := h
        by_cases hq : (st2.c == dchar && st2.p != some bslash) = true
        · rw [if_pos hq] at h'
          simp only [Option.some_inj, Prod.mk.injEq] at h'
          obtain ⟨rfl, rfl⟩ := h'
          refine ⟨hp2, fun hn => ?_⟩
          unfold pnext at hp
          cases hr : st.rest with
          | nil =>
            rw [hr] at hp
            simp at hp
          | cons c rs =>
            rw [hr] at hp
            simp only [Prod.mk.injEq] at hp
            rw [← hp.2] at hn
            simp at hn
        · rw [if_neg hq] at h'
          obtain ⟨he, hr⟩ := ih h'
          exact ⟨by rw [he, hp2], hr⟩

theorem getString_errors {f : Nat} {st : PState} {s st'}
    (h : getString f st = some (s, st')) :
    st'.errors = st.errors ∨
      (st'.errors = st.errors ++ ["unclosed quote"] ∧ st'.c = none ∧ st'.rest = []) := by
  unfold getString at h
  simp only [Option.bind_eq_bind] at h
  rw [Option.bind_eq_some] at h
  obtain ⟨⟨str, st1⟩, h1, h2⟩ := h
  obtain ⟨he1, hr1⟩ := getStringLoop_errors h1
  dsimp only at h2
  simp only [Option.pure_def, Option.some_inj, Prod.mk.injEq] at h2
  obtain ⟨rfl, h2⟩ := h2
  by_cases hn : st1.c = none
  · right
    rw [if_pos hn] at h2
    have hrest : st1.rest = [] := hr1 hn
    have : pnext (syntaxError st1 "unclosed quote") =
        (none, { c := none, p := (syntaxError st1 "unclosed quote").p,
                 rest := (syntaxError st1 "unclosed quote").rest,
                 errors := (syntaxError st1 "unclosed quote").errors }) := by
      unfold pnext
      simp [syntaxError, hrest]
    rw [← h2, this]
    simp [syntaxError, he1, hrest]
  · left
    rw [if_neg hn] at h2
    rw [← h2, pnext_errors, he1]

theorem getValueBare_errors {f : Nat} {value st v e st'}
    (h : getValueBare f value st = some (v, e, st')) : st'.errors = st.errors := by
  induction f generalizing value st with
  | zero => simp [getValueBare] at h
  | succ f ih =>
    unfold getValueBare at h
    by_cases hs : isStopChar st.c = true
    · rw [hs] at h
      simp only [if_true, Option.some_inj, Prod.mk.injEq] at h
      rw [← h.2.2]
    · simp only [Bool.not_eq_true] at hs
      rw [hs] at h
      simp only [Bool.false_eq_true, if_false] at h
      cases hp : pnext st with
      | mk o st1 =>
        rw [hp] at h
        have hp2 : st1.errors = st.errors := by
          have := pnext_errors st
          rw [hp] at this
          exact this
        cases o with
        | none =>
          simp only [Option.some_inj, Prod.mk.injEq] at h
          rw [← h.2.2, hp2]
        | some ch =>
          rw [ih h, hp2]

theorem getValue_errors {f : Nat} {st : PState} {v st'}
    (h : getValue f st = some (v, st')) :
    st'.errors = st.errors ∨
      (st'.errors = st.errors ++ ["unclosed quote"] ∧ st'.c = none) := by
  unfold getValue at h
  simp only [Option.bind_eq_bind] at h
  rw [Option.bind_eq_some] at h
  obtain ⟨st1, h1, h2⟩ := h
  have he1 := eatblanks_errors h1
  by_cases hq : (st1.c == some '"' || st1.c == some squote) = true
  · rw [hq] at h2
    simp only [if_true] at h2
    rw [Option.bind_eq_some] at h2
    obtain ⟨⟨s2, st2⟩, h3, h4⟩ := h2
    rw [Option.bind_eq_some] at h4
    obtain ⟨st3, h5, h6⟩ := h4
    simp only [Option.pure_def, Option.some_inj, Prod.mk.injEq] at h6
    obtain ⟨rfl, rfl⟩ := h6
    have he5 := eatblanks_errors h5
    rcases getString_errors h3 with he3 | ⟨he3, hc3, hr3⟩
    · left
      rw [he5, he3, he1]
    · right
      have hs3 : eatblanks f st2 = some st2 := by
        cases f with
        | zero => simp [eatblanks] at h5
        | succ f =>
          unfold eatblanks
          rw [hc3]
          simp [isBlankChar]
      rw [hs3] at h5
      cases h5
      exact ⟨by rw [he3, he1], hc3⟩
  · simp only [Bool.not_eq_true] at hq
    rw [hq] at h2
    simp only [Bool.false_eq_true, if_false] at h2
    rw [Option.bind_eq_some] at h2
    obtain ⟨⟨v2, e2, st2⟩, h3, h4⟩ := h2
    have he3 := getValueBare_errors h3
    left
    cases e2 with
    | true =>
      simp only [Option.pure_def, Option.some_inj, Prod.mk.injEq, if_true] at h4
      rw [← h4.2, he3, he1]
    | false =>
      simp only [Bool.false_eq_true, if_false] at h4
      rw [Option.bind_eq_some] at h4
      obtain ⟨st3, h5, h6⟩ := h4
      simp only [Option.pure_def, Option.some_inj, Prod.mk.injEq] at h6
      rw [← h6.2, eatblanks_errors h5, he3, he1]

theorem classLoop_success_errors {f : Nat} {classes st r st'}
    (h : classLoop f classes st = some (some r, st')) : st'.errors = st.errors := by
  induction f generalizing classes st with
  | zero => simp [classLoop] at h
  | succ f ih =>
    unfold classLoop at h
    by_cases hdot : st.c = some '.'
    · rw [if_pos hdot] at h
      simp only [Option.bind_eq_bind] at h
      rw [Option.bind_eq_some] at h
      obtain ⟨⟨c?, st1⟩, h1, h2⟩ := h
      have he1 := getAttr_errors h1
      cases c? with
      | none => simp at h2
      | some cc =>
        rw [ih h2, he1, pnext_errors]
    · rw [if_neg hdot] at h
      simp only [Option.some_inj, Prod.mk.injEq] at h
      rw [← h.2]

theorem attrLoop_success_errors {f : Nat} {attrs st r st'}
    (h : attrLoop f attrs st = some (some r, st')) : st'.errors = st.errors := by
  induction f generalizing attrs st with
  | zero => simp [attrLoop] at h
  | succ f ih =>
    unfold attrLoop at h
    simp only [Option.bind_eq_bind] at h
    rw [Option.bind_eq_some] at h
    obtain ⟨⟨attr?, st1⟩, h1, h2⟩ := h
    have he1 := getAttr_errors h1
    cases attr? with
    | none => simp at h2
    | some attr =>
      dsimp only at h2
      rw [Option.bind_eq_some] at h2
      obtain ⟨st2, h3, h4⟩ := h2
      have he3 := eatblanks_errors h3
      by_cases heq : st2.c = some '='
      · rw [if_pos heq] at h4
        rw [Option.bind_eq_some] at h4
        obtain ⟨st3, h5, h6⟩ := h4
        have he5 := eatblanks_errors h5
        rw [Option.bind_eq_some] at h6
        obtain ⟨⟨value, st4⟩, h7, h8⟩ := h6
        dsimp only at h8
        rcases getValue_errors h7 with he7 | ⟨he7, hc7⟩
        · by_cases hcl : st4.c = some ')'
          · rw [if_pos hcl] at h8
            simp only [Option.some_inj, Prod.mk.injEq] at h8
            rw [← h8.2, he7, he5, pnext_errors, he3, he1]
          · rw [if_neg hcl] at h8
            by_cases hcm : st4.c ≠ some ','
            · rw [if_pos hcm] at h8
              simp at h8
            · rw [if_neg hcm] at h8
              rw [ih h8, pnext_errors, he7, he5, pnext_errors, he3, he1]
        · exfalso
          have h1' : st4.c ≠ some ')' := by rw [hc7]; simp
          have h2' : st4.c ≠ some ',' := by rw [hc7]; simp
          rw [if_neg h1', if_pos h2'] at h8
          simp at h8
      · rw [if_neg heq] at h4
        simp only [Option.pure_def, Option.some_bind] at h4
        by_cases hcl : st2.c = some ')'
        · rw [if_pos hcl] at h4
          simp only [Option.some_inj, Prod.mk.injEq] at h4
          rw [← h4.2, he3, he1]
        · rw [if_neg hcl] at h4
          by_cases hcm : st2.c ≠ some ','
          · rw [if_pos hcm] at h4
            simp at h4
          · rw [if_neg hcm] at h4
            rw [ih h4, pnext_errors, he3, he1]

theorem parseAttrsPart_success_errors {f : Nat} {st r st'}
    (h : parseAttrsPart f st = some (some r, st')) : st'.errors = st.errors := by
  unfold parseAttrsPart at h
  by_cases hp : st.c = some '('
  · rw [if_pos hp] at h
    simp only [Option.bind_eq_bind] at h
    rw [Option.bind_eq_some] at h
    obtain ⟨⟨r1, st1⟩, h1, h2⟩ := h
    cases r1 with
    | none => simp at h2
    | some attrs =>
      dsimp only at h2
      by_cases hcl : st1.c ≠ some ')'
      · rw [if_pos hcl] at h2
        simp at h2
      · rw [if_neg hcl] at h2
        simp only [Option.some_inj, Prod.mk.injEq] at h2
        rw [← h2.2, pnext_errors, attrLoop_success_errors h1, pnext_errors]
  · rw [if_neg hp] at h
    simp only [Option.some_inj, Prod.mk.injEq] at h
    rw [← h.2]

theorem parseSegmentRest_success_errors {f : Nat} {tag id st d st'}
    (h : parseSegmentRest f tag id st = some (some d, st')) : st'.errors = st.errors := by
  unfold parseSegmentRest at h
  simp only [Option.bind_eq_bind] at h
  rw [Option.bind_eq_some] at h
  obtain ⟨⟨cls?, st1⟩, h1, h2⟩ := h
  cases cls? with
  | none => simp at h2
  | some classes =>
    dsimp only at h2
    rw [Option.bind_eq_some] at h2
    obtain ⟨⟨attrs?, st2⟩, h3, h4⟩ := h2
    cases attrs? with
    | none => simp at h4
    | some attrs =>
      dsimp only at h4
      rw [Option.bind_eq_some] at h4
      obtain ⟨st3, h5, h6⟩ := h4
      simp only [Option.some_inj, Prod.mk.injEq] at h6
      rw [← h6.2, eatblanks_errors h5, parseAttrsPart_success_errors h3,
        classLoop_success_errors h1]

theorem parseSegment_success_errors {f : Nat} {st d st'}
    (h : parseSegment f st = some (some d, st')) : st'.errors = st.errors := by
  unfold parseSegment at h
  simp only [Option.bind_eq_bind] at h
  rw [Option.bind_eq_some] at h
  obtain ⟨⟨tag?, st1⟩, h1, h2⟩ := h
  have he1 := getAttr_errors h1
  have hep := pnext_errors st
  by_cases hh : st1.c = some '#'
  · rw [if_pos hh] at h2
    simp only [Option.bind_eq_bind] at h2
    rw [Option.bind_eq_some] at h2
    obtain ⟨⟨id?, st2⟩, h3, h4⟩ := h2
    cases id? with
    | none => simp at h4
    | some id =>
      rw [parseSegmentRest_success_errors h4, getAttr_errors h3, pnext_errors, he1, hep]
  · rw [if_neg hh] at h2
    rw [parseSegmentRest_success_errors h2, he1, hep]

theorem chainLoop_success_errors {f : Nat} {results st rs st'}
    (h : chainLoop f results st = some (some rs, st')) : st'.errors = st.errors := by
  induction f generalizing results st with
  | zero => simp [chainLoop] at h
  | succ f ih =>
    unfold chainLoop at h
    simp only [Option.bind_eq_bind] at h
    rw [Option.bind_eq_some] at h
    obtain ⟨⟨d?, st1⟩, h1, h2⟩ := h
    cases d? with
    | none => simp at h2
    | some d =>
      dsimp only at h2
      have he1 := parseSegment_success_errors h1
      by_cases hn : st1.c = none
      · rw [if_pos hn] at h2
        simp only [Option.some_inj, Prod.mk.injEq] at h2
        rw [← h2.2, he1]
      · rw [if_neg hn] at h2
        by_cases hgt : st1.c ≠ some '>'
        · rw [if_pos hgt] at h2
          simp at h2
        · rw [if_neg hgt] at h2
          rw [ih h2, he1]

/-- C5: whenever the run of `parse` reports an unclosed-quote error
(the only place that reports one is `_getString` at end of input inside
a quote), the parse yields the failure result, never a usable chain. -/
theorem c5_unclosed_quote_fails (txt : List Char)
    (h : "unclosed quote" ∈ parseErrors txt) : parseResultO txt = none := by
  unfold parseErrors at h
  unfold parseResultO
  cases hrun : parseRun txt with
  | none => rfl
  | some out =>
    obtain ⟨r, st⟩ := out
    rw [hrun] at h
    cases r with
    | none => rfl
    | some results =>
      exfalso
      dsimp only at h
      have := chainLoop_success_errors hrun
      rw [this] at h
      simp [startState] at h

/-- C5, witness: the spec's example input reports the unclosed-quote
error, and the parse indeed yields no chain. -/
theorem c5_witness :
    "unclosed quote" ∈ parseErrors "a(x=\"unterminated".data ∧
    parseResultO "a(x=\"unterminated".data = none :=
  ⟨by decide, c5_unclosed_quote_fails "a(x=\"unterminated".data (by decide)⟩

/-! ## Claim C10: escape handling in quoted values -/

theorem char_toString_data (ch : Char) : (Char.toString ch).data = [ch] := rfl

theorem getStringLoop_no_trailing_backslash {f : Nat} {dchar : Option Char}
    {acc : String} {st : PState} {s : String} {st1 : PState}
    (h : getStringLoop f dchar acc st = some (s, st1)) (hc : st1.c ≠ none)
    (hinv : acc.data ≠ [] → st.c = acc.data.getLast?) :
    s.data.getLast? ≠ some bslash := by
  induction f generalizing acc st with
  | zero => simp [getStringLoop] at h
  | succ f ih =>
    unfold getStringLoop at h
    cases hp : pnext st with
    | mk o st2 =>
      rw [hp] at h
      cases o with
      | none =>
        exfalso
        simp only [Option.some_inj, Prod.mk.injEq] at h
        obtain ⟨rfl, rfl⟩ := h
        apply hc
        unfold pnext at hp
        cases hr : st.rest with
        | nil =>
          rw [hr] at hp
          simp only [Prod.mk.injEq] at hp
          rw [← hp.2]
        | cons c rs =>
          rw [hr] at hp
          simp at hp
      | some ch =>
        have hpfields : st2.c = some ch ∧ st2.p = st.c := by
          unfold pnext at hp
          cases hr : st.rest with
          | nil =>
            rw [hr] at hp
            simp at hp
          | cons c rs =>
            rw [hr] at hp
            simp only [Prod.mk.injEq] at hp
            obtain ⟨hc1, hst⟩ := hp
            rw [← hst]
            simp only [Option.some_inj] at hc1
            subst hc1
            exact ⟨rfl, rfl⟩
        have h' : (if (st2.c == dchar && st2.p != some bslash) = true then some (acc, st2)
            else getStringLoop f dchar (acc ++ ch.toString) st2) = some (s, st1) := h
        by_cases hq : (st2.c == dchar && st2.p != some bslash) = true
        · rw [if_pos hq] at h'
          simp only [Option.some_inj, Prod.mk.injEq] at h'
          obtain ⟨rfl, rfl⟩ := h'
          simp only [Bool.and_eq_true, bne_iff_ne] at hq
          by_cases hacc : acc.data = []
          · rw [hacc]
            simp
          · rw [← hinv hacc, ← hpfields.2]
            exact hq.2
        · rw [if_neg hq] at h'
          refine ih h' ?_
          intro _
          rw [String.data_append, char_toString_data, List.getLast?_concat]
          rw [hpfields.1]

/-- C10: inside a quoted value a closing quote is treated as escaped
whenever the immediately preceding character is a backslash — even when
that backslash is itself escaped — so no quoted value whose content ends
in a backslash can ever be returned without an unclosed-quote error
(first conjunct), and on the concrete input `a(x="ab\\")` the final
quote does not close the string, scanning runs to the end of input, the
unclosed-quote error is reported and the parse fails (remaining
conjuncts). -/
theorem c10_escaped_quote :
    (∀ (f : Nat) (st : PState) (s : String) (st' : PState),
        getString f st = some (s, st') → st'.errors = st.errors →
        s.data.getLast? ≠ some bslash) ∧
    parseResultO "a(x=\"ab\\\\\")".data = none ∧
    "unclosed quote" ∈ parseErrors "a(x=\"ab\\\\\")".data := by
  refine ⟨?_, rfl, by decide⟩
  intro f st s st' h herr
  unfold getString at h
  simp only [Option.bind_eq_bind] at h
  rw [Option.bind_eq_some] at h
  obtain ⟨⟨str, st1⟩, h1, h2⟩ := h
  dsimp only at h2
  simp only [Option.pure_def, Option.some_inj, Prod.mk.injEq] at h2
  obtain ⟨rfl, h2⟩ := h2
  have he1 := (getStringLoop_errors h1).1
  by_cases hn : st1.c = none
  · exfalso
    rw [if_pos hn] at h2
    have : st'.errors = st.errors ++ ["unclosed quote"] := by
      rw [← h2, pnext_errors]
      simp [syntaxError, he1]
    rw [herr] at this
    have := congrArg List.length this
    simp at this
  · rw [if_neg hn] at h2
    exact getStringLoop_no_trailing_backslash h1 hn (by intro h; simp at h)

/-- C10, witness: a concrete run of `_getString` that closes its quote
(content `ab`), to which the general conjunct applies. -/
theorem c10_witness : ("ab" : String).data.getLast? ≠ some bslash :=
  c10_escaped_quote.1 9 ⟨some '"', none, ['a', 'b', '"', ')'], []⟩ "ab"
    ⟨some ')', some '"', [], []⟩ rfl rfl

/-! ## Claim C9: a trailing `>` appends a default div segment

Simulation between the run on `txt` and the run on `txt ++ ['>']`.
`Rext` relates states still in lockstep (the extension not yet seen);
`Eext` relates a run that has hit the end of `txt` with the extended run
that has just buffered the extra `>`. -/

/-- In-sync states of the two runs. -/
def Rext (st st' : PState) : Prop :=
  st'.c = st.c ∧ st'.p = st.p ∧ st'.rest = st.rest ++ ['>'] ∧ st'.errors = st.errors

/-- End-of-input states: the original run has exhausted `txt`, the
extended run holds the appended `>` as its current character. -/
def Eext (st st' : PState) : Prop :=
  st.c = none ∧ st.rest = [] ∧ st'.c = some '>' ∧ st'.rest = [] ∧ st'.errors = st.errors

/-- The mid-run relation: in sync with a buffered character, or at the
end of the original input. -/
def REc (st st' : PState) : Prop := (Rext st st' ∧ st.c ≠ none) ∨ Eext st st'

/-- The extended run's state after reading the same character. -/
def syncStep (ch : Char) (st1 st' : PState) : PState :=
  ⟨some ch, st'.c, st1.rest ++ ['>'], st'.errors⟩

/-- The extended run's state after reading the appended `>`. -/
def gtStep (st' : PState) : PState := ⟨some '>', st'.c, [], st'.errors⟩

theorem pnext_sim_some {st st' : PState} (h : Rext st st') {ch : Char} {st1 : PState}
    (hp : pnext st = (some ch, st1)) :
    pnext st' = (some ch, syncStep ch st1 st') ∧ Rext st1 (syncStep ch st1 st') ∧
      st1.c = some ch := by
  obtain ⟨hc, hpp, hr, he⟩ := h
  unfold pnext at hp ⊢
  cases hrest : st.rest with
  | nil =>
    rw [hrest] at hp
    simp at hp
  | cons c rs =>
    rw [hrest] at hp
    simp only [Prod.mk.injEq, Option.some_inj] at hp
    obtain ⟨rfl, hst1⟩ := hp
    rw [hr, hrest]
    simp only [List.cons_append]
    unfold syncStep
    rw [← hst1]
    exact ⟨by rw [hc], ⟨rfl, by rw [hc], by simp, by rw [he]⟩, rfl⟩

theorem pnext_sim_none {st st' : PState} (h : Rext st st') {st1 : PState}
    (hp : pnext st = (none, st1)) :
    pnext st' = (some '>', gtStep st') ∧ Eext st1 (gtStep st') := by
  obtain ⟨hc, hpp, hr, he⟩ := h
  unfold pnext at hp ⊢
  cases hrest : st.rest with
  | cons c rs =>
    rw [hrest] at hp
    simp at hp
  | nil =>
    rw [hrest] at hp
    simp only [Prod.mk.injEq] at hp
    rw [hr, hrest]
    simp only [List.nil_append]
    unfold gtStep
    refine ⟨rfl, ?_⟩
    rw [← hp.2]
    exact ⟨rfl, rfl, rfl, rfl, he⟩

/-- A state with equal fields is equal (structure eta). -/
theorem pstate_eta (st : PState) (h : st.c = none) : { st with c := none } = st := by
  cases st
  simp only at h
  rw [h]

theorem eatblanks_at_none {f : Nat} {st : PState} (hf : 1 ≤ f) (h : st.c = none) :
    eatblanks f st = some st := by
  cases f with
  | zero => omega
  | succ f =>
    unfold eatblanks
    rw [h]
    simp [isBlankChar]

theorem getAttrLoop_atEOF {f : Nat} {attr : Option String} {st : PState} (hf : 1 ≤ f)
    (hc : st.c = none) (hr : st.rest = []) : getAttrLoop f attr st = some (attr, st) := by
  cases f with
  | zero => omega
  | succ f =>
    unfold getAttrLoop
    have hp : pnext st = (none, { st with c := none }) := by
      unfold pnext
      rw [hr]
    rw [hp, pstate_eta st hc]

theorem getAttr_atEOF {f : Nat} {st : PState} (hf : 1 ≤ f)
    (hc : st.c = none) (hr : st.rest = []) : getAttr f st = some (none, st) := by
  unfold getAttr
  simp only [Option.bind_eq_bind]
  rw [eatblanks_at_none hf hc, Option.some_bind]
  have ht : testChars st.c = true := by rw [hc]; rfl
  simp only [ht, Bool.not_true, Bool.false_eq_true, if_false]
  have hloop : getAttrLoop f (st.c.map Char.toString) st = some (none, st) := by
    have := @getAttrLoop_atEOF f (st.c.map Char.toString) st hf hc hr
    rw [hc] at this ⊢
    exact this
  rw [hloop, Option.some_bind, eatblanks_at_none hf hc, Option.some_bind]
  rfl

theorem eatblanks_of_not_blank {f : Nat} {st : PState} (hf : 1 ≤ f)
    (h : isBlankChar st.c = false) : eatblanks f st = some st := by
  cases f with
  | zero => omega
  | succ f =>
    unfold eatblanks
    rw [h]
    simp

theorem eatblanks_sim {f : Nat} {st st' st1 : PState} (hrel : REc st st')
    (h : eatblanks f st = some st1) :
    ∃ st1', eatblanks (f + 1) st' = some st1' ∧ REc st1 st1' := by
  induction f generalizing st st' with
  | zero => simp [eatblanks] at h
  | succ f ih =>
    rcases hrel with ⟨hR, hcne⟩ | hE
    · by_cases hb : isBlankChar st.c = true
      · unfold eatblanks at h
        rw [hb] at h
        simp only [if_true] at h
        cases hp : pnext st with
        | mk o st2 =>
          rw [hp] at h
          cases o with
          | some ch =>
            obtain ⟨hpx, hR2, hc2⟩ := pnext_sim_some hR hp
            obtain ⟨st1', h1, h2⟩ := ih (Or.inl ⟨hR2, by rw [hc2]; simp⟩) h
            refine ⟨st1', ?_, h2⟩
            show eatblanks (f + 1 + 1) st' = some st1'
            unfold eatblanks
            rw [hR.1, hb]
            simp only [if_true]
            rw [hpx]
            exact h1
          | none =>
            obtain ⟨hpx, hE2⟩ := pnext_sim_none hR hp
            have hst1 : st1 = st2 := by
              have hfx : 1 ≤ f := by
                cases f with
                | zero => simp [eatblanks] at h
                | succ f => omega
              have := @eatblanks_at_none f st2 hfx hE2.1
              rw [this] at h
              exact (Option.some_inj.mp h).symm
            refine ⟨gtStep st', ?_, Or.inr (hst1 ▸ hE2)⟩
            show eatblanks (f + 1 + 1) st' = some (gtStep st')
            unfold eatblanks
            rw [hR.1, hb]
            simp only [if_true]
            rw [hpx]
            exact eatblanks_of_not_blank (by omega) rfl
      · unfold eatblanks at h
        simp only [Bool.not_eq_true] at hb
        rw [hb] at h
        simp only [Bool.false_eq_true, if_false, Option.some_inj] at h
        subst h
        refine ⟨st', ?_, Or.inl ⟨hR, hcne⟩⟩
        unfold eatblanks
        rw [hR.1, hb]
        simp
    · have hb : isBlankChar st.c = false := by rw [hE.1]; rfl
      unfold eatblanks at h
      rw [hb] at h
      simp only [Bool.false_eq_true, if_false, Option.some_inj] at h
      subst h
      refine ⟨st', ?_, Or.inr hE⟩
      have hb' : isBlankChar st'.c = false := by rw [hE.2.2.1]; rfl
      unfold eatblanks
      rw [hb']
      simp

theorem getAttrLoop_sim {f : Nat} {attr : Option String} {st st' : PState} {a st1}
    (hR : Rext st st') (h : getAttrLoop f attr st = some (a, st1)) :
    ∃ st1', getAttrLoop (f + 1) attr st' = some (a, st1') ∧ REc st1 st1' := by
  induction f generalizing attr st st' with
  | zero => simp [getAttrLoop] at h
  | succ f ih =>
    unfold getAttrLoop at h
    cases hp : pnext st with
    | mk o st2 =>
      rw [hp] at h
      cases o with
      | none =>
        simp only [Option.some_inj, Prod.mk.injEq] at h
        obtain ⟨rfl, rfl⟩ := h
        obtain ⟨hpx, hE2⟩ := pnext_sim_none hR hp
        refine ⟨gtStep st', ?_, Or.inr hE2⟩
        show getAttrLoop (f + 1 + 1) attr st' = some (attr, gtStep st')
        unfold getAttrLoop
        rw [hpx]
        show (if isIdentChar '>' = true then getAttrLoop (f + 1) (jsAppend attr '>') (gtStep st')
             else some (attr, gtStep st')) = some (attr, gtStep st')
        have : isIdentChar '>' = false := rfl
        rw [this]
        simp
      | some ch =>
        obtain ⟨hpx, hR2, hc2⟩ := pnext_sim_some hR hp
        have h' : (if isIdentChar ch = true then getAttrLoop f (jsAppend attr ch) st2
            else some (attr, st2)) = some (a, st1) := h
        by_cases hid : isIdentChar ch = true
        · rw [if_pos hid] at h'
          obtain ⟨st1', h1, h2⟩ := ih hR2 h'
          refine ⟨st1', ?_, h2⟩
          show getAttrLoop (f + 1 + 1) attr st' = some (a, st1')
          unfold getAttrLoop
          rw [hpx]
          simp only [hid, if_true]
          exact h1
        · rw [if_neg hid] at h'
          simp only [Option.some_inj, Prod.mk.injEq] at h'
          obtain ⟨rfl, rfl⟩ := h'
          refine ⟨syncStep ch st2 st', ?_, Or.inl ⟨hR2, by rw [hc2]; simp⟩⟩
          show getAttrLoop (f + 1 + 1) attr st' = some (attr, syncStep ch st2 st')
          unfold getAttrLoop
          rw [hpx]
          simp only [hid, Bool.false_eq_true, if_false]

theorem getAttr_sim {f : Nat} {st st' : PState} {a st1}
    (hrel : REc st st') (h : getAttr f st = some (a, st1)) :
    ∃ st1', getAttr (f + 1) st' = some (a, st1') ∧ REc st1 st1' := by
  have hf1 : 1 ≤ f := by
    cases f with
    | zero => simp [getAttr, eatblanks] at h
    | succ f => omega
  rcases hrel with ⟨hR, hcne⟩ | hE
  · unfold getAttr at h ⊢
    simp only [Option.bind_eq_bind] at h ⊢
    rw [Option.bind_eq_some] at h
    obtain ⟨stA, h1, h2⟩ := h
    obtain ⟨stA', h1', hrelA⟩ := eatblanks_sim (Or.inl ⟨hR, hcne⟩) h1
    rw [h1', Option.some_bind]
    rcases hrelA with ⟨hRA, hcneA⟩ | hEA
    · have hcc : stA'.c = stA.c := hRA.1
      by_cases ht : testChars stA.c = true
      · simp only [ht, Bool.not_true, Bool.false_eq_true, if_false] at h2
        rw [Option.bind_eq_some] at h2
        obtain ⟨⟨a2, stB⟩, h3, h4⟩ := h2
        rw [Option.bind_eq_some] at h4
        obtain ⟨stC, h5, h6⟩ := h4
        simp only [Option.pure_def, Option.some_inj, Prod.mk.injEq] at h6
        obtain ⟨rfl, rfl⟩ := h6
        obtain ⟨stB', h3', hrelB⟩ := getAttrLoop_sim hRA h3
        obtain ⟨stC', h5', hrelC⟩ := eatblanks_sim hrelB h5
        refine ⟨stC', ?_, hrelC⟩
        rw [hcc]
        simp only [ht, Bool.not_true, Bool.false_eq_true, if_false]
        rw [h3', Option.some_bind, h5', Option.some_bind]
        rfl
      · simp only [Bool.not_eq_true] at ht
        simp only [ht, Bool.not_false, if_true, Option.pure_def, Option.some_inj,
          Prod.mk.injEq] at h2
        obtain ⟨rfl, rfl⟩ := h2
        refine ⟨stA', ?_, Or.inl ⟨hRA, hcneA⟩⟩
        rw [hcc]
        simp [ht]
    · -- original run at end of txt: its _getAttr returns null without moving
      have ht : testChars stA.c = true := by rw [hEA.1]; rfl
      simp only [ht, Bool.not_true, Bool.false_eq_true, if_false] at h2
      rw [Option.bind_eq_some] at h2
      obtain ⟨⟨a2, stB⟩, h3, h4⟩ := h2
      rw [getAttrLoop_atEOF hf1 hEA.1 hEA.2.1] at h3
      simp only [Option.some_inj, Prod.mk.injEq] at h3
      obtain ⟨rfl, rfl⟩ := h3
      rw [Option.bind_eq_some] at h4
      obtain ⟨stC, h5, h6⟩ := h4
      rw [eatblanks_at_none hf1 hEA.1] at h5
      cases h5
      simp only [Option.pure_def, Option.some_inj, Prod.mk.injEq] at h6
      obtain ⟨rfl, rfl⟩ := h6
      have ht' : testChars stA'.c = false := by rw [hEA.2.2.1]; rfl
      refine ⟨stA', ?_, Or.inr hEA⟩
      have ha : stA.c.map Char.toString = (none : Option String) := by rw [hEA.1]; rfl
      rw [ha]
      simp [ht']
  · have hEOF := @getAttr_atEOF f st hf1 hE.1 hE.2.1
    rw [hEOF] at h
    simp only [Option.some_inj, Prod.mk.injEq] at h
    obtain ⟨rfl, rfl⟩ := h
    unfold getAttr
    simp only [Option.bind_eq_bind]
    rw [eatblanks_of_not_blank (by omega) (by rw [hE.2.2.1]; rfl), Option.some_bind]
    have ht' : testChars st'.c = false := by rw [hE.2.2.1]; rfl
    refine ⟨st', ?_, Or.inr hE⟩
    simp [ht']

theorem getStringLoop_sim {f : Nat} {dchar : Option Char} {acc : String}
    {st st' : PState} {s : String} {st1 : PState}
    (hR : Rext st st') (hd : dchar ≠ some '>')
    (h : getStringLoop f dchar acc st = some (s, st1)) :
    ∃ s' st1', getStringLoop (f + 2) dchar acc st' = some (s', st1') ∧
      ((s' = s ∧ Rext st1 st1' ∧ st1.c ≠ none) ∨
       (st1.c = none ∧ st1.rest = [] ∧ st1'.c = none ∧ st1'.rest = [] ∧
        st1'.errors = st1.errors)) := by
  induction f generalizing acc st st' with
  | zero => simp [getStringLoop] at h
  | succ f ih =>
    unfold getStringLoop at h
    cases hp : pnext st with
    | mk o st2 =>
      rw [hp] at h
      cases o with
      | none =>
        simp only [Option.some_inj, Prod.mk.injEq] at h
        obtain ⟨rfl, rfl⟩ := h
        obtain ⟨hpx, hE2⟩ := pnext_sim_none hR hp
        have hbeq : ((gtStep st').c == dchar && (gtStep st').p != some bslash) = false := by
          have : ((gtStep st').c == dchar) = false := by
            refine beq_eq_false_iff_ne.mpr ?_
            show some '>' ≠ dchar
            exact fun hx => hd hx.symm
          rw [this]
          rfl
        refine ⟨acc ++ ('>'.toString), { gtStep st' with c := none }, ?_, ?_⟩
        · show getStringLoop (f + 1 + 2) dchar acc st' = _
          unfold getStringLoop
          rw [hpx]
          show (if ((gtStep st').c == dchar && (gtStep st').p != some bslash) = true
              then some (acc, gtStep st')
              else getStringLoop (f + 2) dchar (acc ++ '>'.toString) (gtStep st')) = _
          rw [hbeq]
          simp only [Bool.false_eq_true, if_false]
          unfold getStringLoop
          have hp2 : pnext (gtStep st') = (none, { gtStep st' with c := none }) := rfl
          cases f with
          | zero => rw [hp2]
          | succ f => rw [hp2]
        · exact Or.inr ⟨hE2.1, hE2.2.1, rfl, rfl, hE2.2.2.2.2⟩
      | some ch =>
        obtain ⟨hpx, hR2, hc2⟩ := pnext_sim_some hR hp
        have h' : (if (st2.c == dchar && st2.p != some bslash) = true then some (acc, st2)
            else getStringLoop f dchar (acc ++ ch.toString) st2) = some (s, st1) := h
        have hcond : ((syncStep ch st2 st').c == dchar && (syncStep ch st2 st').p != some bslash) =
            (st2.c == dchar && st2.p != some bslash) := by
          rw [hR2.1, hR2.2.1]
        by_cases hq : (st2.c == dchar && st2.p != some bslash) = true
        · rw [if_pos hq] at h'
          simp only [Option.some_inj, Prod.mk.injEq] at h'
          obtain ⟨rfl, rfl⟩ := h'
          refine ⟨acc, syncStep ch st2 st', ?_, Or.inl ⟨rfl, hR2, by rw [hc2]; simp⟩⟩
          show getStringLoop (f + 1 + 2) dchar acc st' = _
          unfold getStringLoop
          rw [hpx]
          show (if ((syncStep ch st2 st').c == dchar && (syncStep ch st2 st').p != some bslash) = true
              then some (acc, syncStep ch st2 st')
              else getStringLoop (f + 2) dchar (acc ++ ch.toString) (syncStep ch st2 st')) = _
          rw [hcond, hq]
          simp
        · rw [if_neg hq] at h'
          obtain ⟨s', st1', h1, h2⟩ := ih hR2 h'
          refine ⟨s', st1', ?_, h2⟩
          show getStringLoop (f + 1 + 2) dchar acc st' = _
          unfold getStringLoop
          rw [hpx]
          show (if ((syncStep ch st2 st').c == dchar && (syncStep ch st2 st').p != some bslash) = true
              then some (acc, syncStep ch st2 st')
              else getStringLoop (f + 2) dchar (acc ++ ch.toString) (syncStep ch st2 st')) = _
          rw [hcond]
          simp only [hq, Bool.false_eq_true, if_false]
          exact h1

theorem pnext_nil {st : PState} (h : st.rest = []) :
    pnext st = (none, { st with c := none }) := by
  unfold pnext
  rw [h]

theorem getString_sim {f : Nat} {st st' : PState} {s : String} {st1 : PState}
    (hR : Rext st st') (hq : st.c = some '"' ∨ st.c = some squote)
    (h : getString f st = some (s, st1)) :
    ∃ s' st1', getString (f + 2) st' = some (s', st1') ∧
      ((s' = s ∧ REc st1 st1') ∨
       (st1.c = none ∧ st1'.c = none ∧ st1'.errors = st1.errors)) := by
  have hd : st.c ≠ some '>' := by
    rcases hq with hq | hq <;> rw [hq] <;> simp [squote]
  simp only [getString, Option.bind_eq_bind] at h
  rw [Option.bind_eq_some] at h
  obtain ⟨⟨str, stL⟩, hL, hres⟩ := h
  obtain ⟨s2, stL', hL', hcase⟩ := getStringLoop_sim hR hd hL
  have hgoal : ∀ r, (if stL'.c = none then syntaxError stL' "unclosed quote" else stL') = r →
      getString (f + 2) st' = some (s2, (pnext r).2) := by
    intro r hr
    simp only [getString, Option.bind_eq_bind]
    rw [hR.1, hL', Option.some_bind, hr]
    rfl
  have hres2 : some (str, (pnext (if stL.c = none then syntaxError stL "unclosed quote"
      else stL)).2) = some (s, st1) := hres
  clear hres
  rcases hcase with ⟨hs2, hRL, hcne⟩ | ⟨hc, hrest, hc', hrest', herr⟩
  · -- loop ended on a matching close quote in both runs
    rw [if_neg hcne] at hres2
    have hcne' : ¬ stL'.c = none := by rw [hRL.1]; exact hcne
    cases hp : pnext stL with
    | mk o stN =>
      rw [hp] at hres2
      simp only [Option.some_inj, Prod.mk.injEq] at hres2
      obtain ⟨hs, hst⟩ := hres2
      cases o with
      | none =>
        obtain ⟨hpx, hE⟩ := pnext_sim_none hRL hp
        refine ⟨s2, gtStep stL', ?_, Or.inl ⟨hs2.trans hs, ?_⟩⟩
        · rw [hgoal stL' (if_neg hcne'), hpx]
        · rw [← hst]
          exact Or.inr hE
      | some ch =>
        obtain ⟨hpx, hR2, hc2⟩ := pnext_sim_some hRL hp
        refine ⟨s2, syncStep ch stN stL', ?_, Or.inl ⟨hs2.trans hs, ?_⟩⟩
        · rw [hgoal stL' (if_neg hcne'), hpx]
        · rw [← hst]
          exact Or.inl ⟨hR2, by rw [hc2]; simp⟩
  · -- the txt run hit EOF inside the quote; both runs end with c = null
    rw [if_pos hc] at hres2
    rw [pnext_nil (show (syntaxError stL "unclosed quote").rest = [] from hrest)] at hres2
    simp only [Option.some_inj, Prod.mk.injEq] at hres2
    obtain ⟨hs, hst⟩ := hres2
    refine ⟨s2, { syntaxError stL' "unclosed quote" with c := none }, ?_,
      Or.inr ⟨?_, rfl, ?_⟩⟩
    · rw [hgoal (syntaxError stL' "unclosed quote") (if_pos hc'),
        pnext_nil (show (syntaxError stL' "unclosed quote").rest = [] from hrest')]
    · rw [← hst]
    · rw [← hst]
      show stL'.errors ++ _ = stL.errors ++ _
      rw [herr]

theorem getValueBare_sim {f : Nat} {value : String} {st st' : PState}
    {v : String} {e : Bool} {st1 : PState}
    (hrel : REc st st')
    (h : getValueBare f value st = some (v, e, st1)) :
    ∃ v' e' st1', getValueBare (f + 2) value st' = some (v', e', st1') ∧
      ((v' = v ∧ e' = e ∧ REc st1 st1') ∨
       (e = true ∧ e' = true ∧ st1.c = none ∧ st1'.c = none ∧
        st1'.errors = st1.errors)) := by
  induction f generalizing value st st' with
  | zero => simp [getValueBare] at h
  | succ f ih =>
    unfold getValueBare at h
    rcases hrel with ⟨hRx, hcne⟩ | hE
    · have hstop : isStopChar st'.c = isStopChar st.c := by rw [hRx.1]
      by_cases hs : isStopChar st.c = true
      · rw [if_pos hs] at h
        simp only [Option.some_inj, Prod.mk.injEq] at h
        obtain ⟨hv, he, hst⟩ := h
        refine ⟨value, false, st', ?_, Or.inl ⟨hv, by rw [← he], ?_⟩⟩
        · show getValueBare (f + 1 + 2) value st' = _
          unfold getValueBare
          rw [hstop, if_pos hs]
        · rw [← hst]
          exact Or.inl ⟨hRx, hcne⟩
      · rw [if_neg hs] at h
        cases hp : pnext st with
        | mk o st2 =>
          rw [hp] at h
          have hval : value ++ jsCharVal st'.c = value ++ jsCharVal st.c := by rw [hRx.1]
          cases o with
          | none =>
            simp only [Option.some_inj, Prod.mk.injEq] at h
            obtain ⟨hv, he, hst⟩ := h
            obtain ⟨hpx, hE2⟩ := pnext_sim_none hRx hp
            refine ⟨value ++ jsCharVal st.c ++ ('>'.toString), true,
              { gtStep st' with c := none }, ?_, Or.inr ⟨by rw [← he], rfl, ?_, rfl, ?_⟩⟩
            · show getValueBare (f + 1 + 2) value st' = _
              unfold getValueBare
              rw [hstop, if_neg hs]
              show (match pnext st' with
                | (none, stx) => some (value ++ jsCharVal st'.c, true, stx)
                | (some _, stx) => getValueBare (f + 2) (value ++ jsCharVal st'.c) stx) = _
              rw [hpx, hval]
              show getValueBare (f + 2) (value ++ jsCharVal st.c) (gtStep st') = _
              unfold getValueBare
              have hs2 : isStopChar (gtStep st').c = false := by rfl
              rw [hs2]
              simp only [Bool.false_eq_true, if_false]
              have hp2 : pnext (gtStep st') = (none, { gtStep st' with c := none }) := rfl
              cases f with
              | zero => rw [hp2]; rfl
              | succ f => rw [hp2]; rfl
            · rw [← hst]
              exact hE2.1
            · rw [← hst]
              exact hE2.2.2.2.2
          | some ch =>
            obtain ⟨hpx, hR2, hc2⟩ := pnext_sim_some hRx hp
            obtain ⟨v2, e2, st12, hrun, hcase⟩ :=
              ih (Or.inl ⟨hR2, by rw [hc2]; simp⟩) h
            refine ⟨v2, e2, st12, ?_, hcase⟩
            show getValueBare (f + 1 + 2) value st' = _
            unfold getValueBare
            rw [hstop, if_neg hs]
            show (match pnext st' with
              | (none, stx) => some (value ++ jsCharVal st'.c, true, stx)
              | (some _, stx) => getValueBare (f + 2) (value ++ jsCharVal st'.c) stx) = _
            rw [hpx, hval]
            exact hrun
    · -- EOF in the txt run: the extended run sees the trailing '>' as a bareword
      have hc0 : st.c = none := hE.1
      rw [hc0] at h
      have hs0 : isStopChar none = false := rfl
      rw [hs0] at h
      simp only [Bool.false_eq_true, if_false] at h
      rw [pnext_nil hE.2.1] at h
      simp only [Option.some_inj, Prod.mk.injEq] at h
      obtain ⟨hv, he, hst⟩ := h
      refine ⟨value ++ jsCharVal st'.c, true, { st' with c := none }, ?_,
        Or.inr ⟨by rw [← he], rfl, ?_, rfl, ?_⟩⟩
      · show getValueBare (f + 1 + 2) value st' = _
        unfold getValueBare
        have hsx : isStopChar st'.c = false := by rw [hE.2.2.1]; rfl
        rw [hsx]
        simp only [Bool.false_eq_true, if_false]
        show (match pnext st' with
          | (none, stx) => some (value ++ jsCharVal st'.c, true, stx)
          | (some _, stx) => getValueBare (f + 2) (value ++ jsCharVal st'.c) stx) = _
        rw [pnext_nil hE.2.2.2.1]
      · rw [← hst]
      · rw [← hst]
        exact hE.2.2.2.2

theorem getValue_sim {f : Nat} {st st' : PState} {v : Option String} {st1 : PState}
    (hrel : REc st st') (h : getValue f st = some (v, st1)) :
    ∃ v' st1', getValue (f + 2) st' = some (v', st1') ∧
      ((v' = v ∧ REc st1 st1') ∨
       (st1.c = none ∧ st1'.c = none ∧ st1'.errors = st1.errors)) := by
  simp only [getValue, Option.bind_eq_bind] at h
  rw [Option.bind_eq_some] at h
  obtain ⟨stA, hEat, h⟩ := h
  obtain ⟨stA', hEat', hrelA⟩ := eatblanks_sim hrel hEat
  have hEat'2 : eatblanks (f + 2) st' = some stA' := eatblanks_mono (by omega) hEat'
  by_cases hq : (stA.c == some '"' || stA.c == some squote) = true
  · -- quoted value in the txt run
    have hqd : stA.c = some '"' ∨ stA.c = some squote := by
      simpa only [Bool.or_eq_true, beq_iff_eq] using hq
    have hRA : Rext stA stA' ∧ stA.c ≠ none := by
      rcases hrelA with hx | hx
      · exact hx
      · exfalso
        have hc := hx.1
        rcases hqd with hy | hy <;> rw [hy] at hc <;> simp at hc
    have hq' : (stA'.c == some '"' || stA'.c == some squote) = true := by
      rw [hRA.1.1]; exact hq
    rw [if_pos hq] at h
    rw [Option.bind_eq_some] at h
    obtain ⟨⟨s, stB⟩, hS, h2⟩ := h
    replace h2 : (eatblanks f stB).bind (fun stC => some (some s, stC)) = some (v, st1) := h2
    obtain ⟨s', stB', hS', hScase⟩ := getString_sim hRA.1 hqd hS
    rcases hScase with ⟨hseq, hRB⟩ | ⟨hcB, hcB', herrB⟩
    · -- the string was read identically
      rw [Option.bind_eq_some] at h2
      obtain ⟨stC, hC, h3⟩ := h2
      simp only [Option.some_inj, Prod.mk.injEq] at h3
      obtain ⟨hv, hst⟩ := h3
      obtain ⟨stC', hC', hrelC⟩ := eatblanks_sim hRB hC
      refine ⟨some s', stC', ?_,
        Or.inl ⟨by rw [hseq]; exact hv, by rw [← hst]; exact hrelC⟩⟩
      simp only [getValue, Option.bind_eq_bind]
      rw [hEat'2]
      simp only [Option.some_bind]
      rw [if_pos hq', hS']
      simp only [Option.some_bind]
      rw [eatblanks_mono (by omega : f + 1 ≤ f + 2) hC']
      simp only [Option.some_bind]
      rfl
    · -- the txt run hit EOF inside the quote
      have hf1 : 1 ≤ f := by
        cases f with
        | zero => rw [show eatblanks 0 stB = none from rfl] at h2; simp at h2
        | succ f => omega
      rw [eatblanks_at_none hf1 hcB] at h2
      simp only [Option.some_bind, Option.some_inj, Prod.mk.injEq] at h2
      obtain ⟨hv, hst⟩ := h2
      refine ⟨some s', stB', ?_,
        Or.inr ⟨by rw [← hst]; exact hcB, hcB', by rw [← hst]; exact herrB⟩⟩
      simp only [getValue, Option.bind_eq_bind]
      rw [hEat'2]
      simp only [Option.some_bind]
      rw [if_pos hq', hS']
      simp only [Option.some_bind]
      rw [eatblanks_at_none (by omega) hcB']
      simp only [Option.some_bind]
      rfl
  · -- bareword in the txt run; the extended run also takes the bareword branch
    have hq' : (stA'.c == some '"' || stA'.c == some squote) = false := by
      rcases hrelA with ⟨hRA, _⟩ | hEE
      · rw [hRA.1]; exact Bool.eq_false_iff.mpr hq
      · rw [hEE.2.2.1]; rfl
    rw [if_neg hq] at h
    rw [Option.bind_eq_some] at h
    obtain ⟨⟨vb, e, stB⟩, hB, h2⟩ := h
    replace h2 : (if e = true then some (some vb, stB)
        else (eatblanks f stB).bind
          (fun stC => some (if strTrim vb = "null" then none
            else some (strTrim vb), stC))) = some (v, st1) := h2
    obtain ⟨vb', e', stB', hB', hBcase⟩ := getValueBare_sim hrelA hB
    have hext0 : ∀ r, (if e' = true then some (some vb', stB')
        else (eatblanks (f + 2) stB').bind
          (fun stC => some (if strTrim vb' = "null" then none
            else some (strTrim vb'), stC))) = r →
        getValue (f + 2) st' = r := by
      intro r hr
      simp only [getValue, Option.bind_eq_bind]
      rw [hEat'2]
      simp only [Option.some_bind]
      rw [if_neg (by rw [hq']; simp), hB']
      simp only [Option.some_bind]
      exact hr
    rcases hBcase with ⟨hveq, heq, hRB⟩ | ⟨he, he', hcB, hcB', herrB⟩
    · by_cases he : e = true
      · rw [if_pos he] at h2
        simp only [Option.some_inj, Prod.mk.injEq] at h2
        obtain ⟨hv, hst⟩ := h2
        exact ⟨some vb', stB', hext0 _ (if_pos (heq.trans he)),
          Or.inl ⟨by rw [hveq]; exact hv, by rw [← hst]; exact hRB⟩⟩
      · rw [if_neg he] at h2
        rw [Option.bind_eq_some] at h2
        obtain ⟨stC, hC, h3⟩ := h2
        simp only [Option.some_inj, Prod.mk.injEq] at h3
        obtain ⟨hv, hst⟩ := h3
        obtain ⟨stC', hC', hrelC⟩ := eatblanks_sim hRB hC
        refine ⟨if strTrim vb' = "null" then none else some (strTrim vb'), stC',
          hext0 _ ?_, Or.inl ⟨?_, by rw [← hst]; exact hrelC⟩⟩
        · rw [if_neg (by rw [heq]; exact he),
            eatblanks_mono (by omega : f + 1 ≤ f + 2) hC']
          simp only [Option.some_bind]
        · rw [hveq]
          exact hv
    · rw [if_pos he] at h2
      simp only [Option.some_inj, Prod.mk.injEq] at h2
      obtain ⟨hv, hst⟩ := h2
      exact ⟨some vb', stB', hext0 _ (if_pos he'),
        Or.inr ⟨by rw [← hst]; exact hcB, hcB', by rw [← hst]; exact herrB⟩⟩

theorem classLoop_sim {f : Nat} {classes : List String} {st st' : PState}
    {cl : List String} {st1 : PState}
    (hrel : REc st st') (h : classLoop f classes st = some (some cl, st1)) :
    ∃ st1', classLoop (f + 2) classes st' = some (some cl, st1') ∧ REc st1 st1' := by
  induction f generalizing classes st st' with
  | zero => simp [classLoop] at h
  | succ f ih =>
    unfold classLoop at h
    rcases hrel with ⟨hR, hcne⟩ | hE
    · by_cases hdot : st.c = some '.'
      · rw [if_pos hdot] at h
        simp only [Option.bind_eq_bind] at h
        cases hp : pnext st with
        | mk o st2 =>
          have hst2 : (pnext st).2 = st2 := by rw [hp]
          rw [hst2] at h
          rw [Option.bind_eq_some] at h
          obtain ⟨⟨c?, stA⟩, hA, h2⟩ := h
          have hf1 : 1 ≤ f := by
            cases f with
            | zero => simp [getAttr, eatblanks] at hA
            | succ f => omega
          cases o with
          | none =>
            obtain ⟨hpx, hE2⟩ := pnext_sim_none hR hp
            rw [getAttr_atEOF hf1 hE2.1 hE2.2.1] at hA
            simp only [Option.some_inj, Prod.mk.injEq] at hA
            obtain ⟨hA1, hA2⟩ := hA
            rw [← hA1] at h2
            simp at h2
          | some ch =>
            obtain ⟨hpx, hR2, hc2⟩ := pnext_sim_some hR hp
            obtain ⟨stA', hA', hrelA⟩ :=
              getAttr_sim (Or.inl ⟨hR2, by rw [hc2]; simp⟩) hA
            cases c? with
            | none =>
              replace h2 : some ((none : Option (List String)),
                  syntaxError stA "unexpected class") = some (some cl, st1) := h2
              simp at h2
            | some cc =>
              replace h2 : classLoop f (classes ++ [cc]) stA = some (some cl, st1) := h2
              obtain ⟨st1', hrun, hrel1⟩ := ih hrelA h2
              refine ⟨st1', ?_, hrel1⟩
              show classLoop (f + 1 + 2) classes st' = _
              unfold classLoop
              rw [if_pos (by rw [hR.1]; exact hdot)]
              simp only [Option.bind_eq_bind]
              have hstp' : (pnext st').2 = syncStep ch st2 st' := by rw [hpx]
              rw [hstp', getAttr_mono (by omega : f + 1 ≤ f + 2) hA', Option.some_bind]
              exact hrun
      · rw [if_neg hdot] at h
        simp only [Option.some_inj, Prod.mk.injEq, Option.some.injEq] at h
        obtain ⟨hcl, hst⟩ := h
        refine ⟨st', ?_, by rw [← hst]; exact Or.inl ⟨hR, hcne⟩⟩
        show classLoop (f + 1 + 2) classes st' = _
        unfold classLoop
        rw [if_neg (by rw [hR.1]; exact hdot), hcl]
    · have hdot : ¬ st.c = some '.' := by rw [hE.1]; simp
      rw [if_neg hdot] at h
      simp only [Option.some_inj, Prod.mk.injEq, Option.some.injEq] at h
      obtain ⟨hcl, hst⟩ := h
      refine ⟨st', ?_, by rw [← hst]; exact Or.inr hE⟩
      show classLoop (f + 1 + 2) classes st' = _
      unfold classLoop
      rw [if_neg (by rw [hE.2.2.1]; simp), hcl]

theorem attrLoop_sim {f : Nat} {attrs : List (String × Option String)} {st st' : PState}
    {r : List (String × Option String)} {st1 : PState}
    (hrel : REc st st') (h : attrLoop f attrs st = some (some r, st1)) :
    ∃ st1', attrLoop (f + 2) attrs st' = some (some r, st1') ∧ REc st1 st1' := by
  induction f generalizing attrs st st' with
  | zero => simp [attrLoop] at h
  | succ f ih =>
    have htail : ∀ (attrs0 : List (String × Option String)) (attr : String)
        (value : Option String) (stC stC' : PState), REc stC stC' →
        (if stC.c = some ')' then some (some (objSet attrs0 attr value), stC)
         else if stC.c ≠ some ',' then
           some ((none : Option (List (String × Option String))),
             syntaxError stC "unexpected character")
         else attrLoop f (objSet attrs0 attr value) (pnext stC).2) = some (some r, st1) →
        ∃ st1', (if stC'.c = some ')' then some (some (objSet attrs0 attr value), stC')
         else if stC'.c ≠ some ',' then
           some ((none : Option (List (String × Option String))),
             syntaxError stC' "unexpected character")
         else attrLoop (f + 2) (objSet attrs0 attr value) (pnext stC').2) =
           some (some r, st1') ∧ REc st1 st1' := by
      intro attrs0 attr value stC stC' hrelC h4
      rcases hrelC with ⟨hRC, hcneC⟩ | hEC
      · by_cases hrp : stC.c = some ')'
        · rw [if_pos hrp] at h4
          simp only [Option.some_inj, Prod.mk.injEq, Option.some.injEq] at h4
          obtain ⟨hr4, hst4⟩ := h4
          refine ⟨stC', ?_, by rw [← hst4]; exact Or.inl ⟨hRC, hcneC⟩⟩
          rw [if_pos (by rw [hRC.1]; exact hrp), hr4]
        · rw [if_neg hrp] at h4
          by_cases hcm : stC.c = some ','
          · rw [if_neg (fun hx => hx hcm)] at h4
            cases hp2 : pnext stC with
            | mk o2 st3 =>
              have hst3 : (pnext stC).2 = st3 := by rw [hp2]
              rw [hst3] at h4
              cases o2 with
              | none =>
                obtain ⟨hpx2, hE3⟩ := pnext_sim_none hRC hp2
                obtain ⟨st1', hrun, hrel1⟩ := ih (Or.inr hE3) h4
                refine ⟨st1', ?_, hrel1⟩
                rw [if_neg (by rw [hRC.1]; exact hrp),
                  if_neg (by rw [hRC.1]; exact fun hx => hx hcm),
                  show (pnext stC').2 = gtStep stC' from by rw [hpx2]]
                exact hrun
              | some ch2 =>
                obtain ⟨hpx2, hR3, hc3⟩ := pnext_sim_some hRC hp2
                obtain ⟨st1', hrun, hrel1⟩ := ih (Or.inl ⟨hR3, by rw [hc3]; simp⟩) h4
                refine ⟨st1', ?_, hrel1⟩
                rw [if_neg (by rw [hRC.1]; exact hrp),
                  if_neg (by rw [hRC.1]; exact fun hx => hx hcm),
                  show (pnext stC').2 = syncStep ch2 st3 stC' from by rw [hpx2]]
                exact hrun
          · rw [if_pos hcm] at h4
            simp at h4
      · rw [if_neg (by rw [hEC.1]; simp), if_pos (by rw [hEC.1]; simp)] at h4
        simp at h4
    unfold attrLoop at h
    simp only [Option.bind_eq_bind] at h
    rw [Option.bind_eq_some] at h
    obtain ⟨⟨attr?, stA⟩, hA, h2⟩ := h
    have hf1 : 1 ≤ f := by
      cases f with
      | zero => simp [getAttr, eatblanks] at hA
      | succ f => omega
    obtain ⟨stA', hA', hrelA⟩ := getAttr_sim hrel hA
    cases attr? with
    | none =>
      replace h2 : some ((none : Option (List (String × Option String))),
          syntaxError stA "unexpected attribute") = some (some r, st1) := h2
      simp at h2
    | some attr =>
      replace h2 : (eatblanks f stA).bind (fun stB =>
          if stB.c = some '=' then
            (eatblanks f (pnext stB).2).bind (fun stx =>
              (getValue f stx).bind (fun p =>
                if p.2.c = some ')' then some (some (objSet attrs attr p.1), p.2)
                else if p.2.c ≠ some ',' then
                  some (none, syntaxError p.2 "unexpected character")
                else attrLoop f (objSet attrs attr p.1) (pnext p.2).2))
          else
            (some ((none : Option String), stB)).bind (fun p =>
              if p.2.c = some ')' then some (some (objSet attrs attr p.1), p.2)
              else if p.2.c ≠ some ',' then
                some (none, syntaxError p.2 "unexpected character")
              else attrLoop f (objSet attrs attr p.1) (pnext p.2).2)) =
          some (some r, st1) := h2
      rw [Option.bind_eq_some] at h2
      obtain ⟨stB, hEB, h3⟩ := h2
      obtain ⟨stB', hEB', hrelB⟩ := eatblanks_sim hrelA hEB
      have hpre : ∀ z, (if stB'.c = some '=' then
            (eatblanks (f + 2) (pnext stB').2).bind (fun stx =>
              (getValue (f + 2) stx).bind (fun p =>
                if p.2.c = some ')' then some (some (objSet attrs attr p.1), p.2)
                else if p.2.c ≠ some ',' then
                  some (none, syntaxError p.2 "unexpected character")
                else attrLoop (f + 2) (objSet attrs attr p.1) (pnext p.2).2))
          else
            (some ((none : Option String), stB')).bind (fun p =>
              if p.2.c = some ')' then some (some (objSet attrs attr p.1), p.2)
              else if p.2.c ≠ some ',' then
                some (none, syntaxError p.2 "unexpected character")
              else attrLoop (f + 2) (objSet attrs attr p.1) (pnext p.2).2)) = z →
          attrLoop (f + 1 + 2) attrs st' = z := by
        intro z hz
        unfold attrLoop
        simp only [Option.bind_eq_bind]
        rw [getAttr_mono (by omega : f + 1 ≤ f + 2) hA', Option.some_bind]
        show (eatblanks (f + 2) stA').bind _ = z
        rw [eatblanks_mono (by omega : f + 1 ≤ f + 2) hEB', Option.some_bind]
        exact hz
      rcases hrelB with ⟨hRB, hcneB⟩ | hEB2
      · by_cases heq : stB.c = some '='
        · rw [if_pos heq] at h3
          cases hp : pnext stB with
          | mk o st2 =>
            have hst2 : (pnext stB).2 = st2 := by rw [hp]
            rw [hst2] at h3
            rw [Option.bind_eq_some] at h3
            obtain ⟨stD, hED, h3b⟩ := h3
            rw [Option.bind_eq_some] at h3b
            obtain ⟨⟨value, stC⟩, hGV, h4⟩ := h3b
            replace h4 : (if stC.c = some ')' then
                some (some (objSet attrs attr value), stC)
              else if stC.c ≠ some ',' then
                some ((none : Option (List (String × Option String))),
                  syntaxError stC "unexpected character")
              else attrLoop f (objSet attrs attr value) (pnext stC).2) =
                some (some r, st1) := h4
            have hsimD : ∃ st2x, (pnext stB').2 = st2x ∧ REc st2 st2x := by
              cases o with
              | none =>
                obtain ⟨hpx, hE2⟩ := pnext_sim_none hRB hp
                exact ⟨gtStep stB', by rw [hpx], Or.inr hE2⟩
              | some ch =>
                obtain ⟨hpx, hR2, hc2⟩ := pnext_sim_some hRB hp
                exact ⟨syncStep ch st2 stB', by rw [hpx], Or.inl ⟨hR2, by rw [hc2]; simp⟩⟩
            obtain ⟨st2x, hst2x, hrel2⟩ := hsimD
            obtain ⟨stD', hED', hrelD⟩ := eatblanks_sim hrel2 hED
            obtain ⟨v', stC', hGV', hVcase⟩ := getValue_sim hrelD hGV
            rcases hVcase with ⟨hveq, hrelC⟩ | ⟨hcC, hcC', herrC⟩
            · rw [hveq] at hGV'
              obtain ⟨st1', hruntail, hrel1⟩ := htail attrs attr value stC stC' hrelC h4
              refine ⟨st1', hpre _ ?_, hrel1⟩
              rw [if_pos (by rw [hRB.1]; exact heq), hst2x,
                eatblanks_mono (by omega : f + 1 ≤ f + 2) hED', Option.some_bind,
                hGV', Option.some_bind]
              exact hruntail
            · rw [if_neg (by rw [hcC]; simp), if_pos (by rw [hcC]; simp)] at h4
              simp at h4
        · rw [if_neg heq] at h3
          replace h3 : (if stB.c = some ')' then
              some (some (objSet attrs attr none), stB)
            else if stB.c ≠ some ',' then
              some ((none : Option (List (String × Option String))),
                syntaxError stB "unexpected character")
            else attrLoop f (objSet attrs attr none) (pnext stB).2) =
              some (some r, st1) := h3
          obtain ⟨st1', hruntail, hrel1⟩ :=
            htail attrs attr none stB stB' (Or.inl ⟨hRB, hcneB⟩) h3
          refine ⟨st1', hpre _ ?_, hrel1⟩
          rw [if_neg (by rw [hRB.1]; exact heq), Option.some_bind]
          exact hruntail
      · have heq : ¬ stB.c = some '=' := by rw [hEB2.1]; simp
        rw [if_neg heq] at h3
        replace h3 : (if stB.c = some ')' then
            some (some (objSet attrs attr none), stB)
          else if stB.c ≠ some ',' then
            some ((none : Option (List (String × Option String))),
              syntaxError stB "unexpected character")
          else attrLoop f (objSet attrs attr none) (pnext stB).2) =
            some (some r, st1) := h3
        obtain ⟨st1', hruntail, hrel1⟩ :=
          htail attrs attr none stB stB' (Or.inr hEB2) h3
        refine ⟨st1', hpre _ ?_, hrel1⟩
        rw [if_neg (by rw [hEB2.2.2.1]; simp), Option.some_bind]
        exact hruntail

theorem parseAttrsPart_sim {f : Nat} {st st' : PState}
    {r : List (String × Option String)} {st1 : PState}
    (hrel : REc st st') (h : parseAttrsPart f st = some (some r, st1)) :
    ∃ st1', parseAttrsPart (f + 2) st' = some (some r, st1') ∧ REc st1 st1' := by
  rcases hrel with ⟨hR, hcne⟩ | hE
  · by_cases hpar : st.c = some '('
    · simp only [parseAttrsPart, Option.bind_eq_bind] at h
      rw [if_pos hpar] at h
      cases hp : pnext st with
      | mk o st2 =>
        have hst2 : (pnext st).2 = st2 := by rw [hp]
        rw [hst2] at h
        rw [Option.bind_eq_some] at h
        obtain ⟨⟨r?, stA⟩, hAL, h2⟩ := h
        have hsim2 : ∃ st2x, (pnext st').2 = st2x ∧ REc st2 st2x := by
          cases o with
          | none =>
            obtain ⟨hpx, hE2⟩ := pnext_sim_none hR hp
            exact ⟨gtStep st', by rw [hpx], Or.inr hE2⟩
          | some ch =>
            obtain ⟨hpx, hR2, hc2⟩ := pnext_sim_some hR hp
            exact ⟨syncStep ch st2 st', by rw [hpx], Or.inl ⟨hR2, by rw [hc2]; simp⟩⟩
        obtain ⟨st2x, hst2x, hrel2⟩ := hsim2
        cases r? with
        | none =>
          replace h2 : some ((none : Option (List (String × Option String))), stA) =
              some (some r, st1) := h2
          simp at h2
        | some attrs =>
          replace h2 : (if stA.c ≠ some ')' then
              some ((none : Option (List (String × Option String))),
                syntaxError stA "expected )")
            else some (some attrs, (pnext stA).2)) = some (some r, st1) := h2
          obtain ⟨stA', hAL', hrelA⟩ := attrLoop_sim hrel2 hAL
          have hpre : ∀ z, (if stA'.c ≠ some ')' then
                some ((none : Option (List (String × Option String))),
                  syntaxError stA' "expected )")
              else some (some attrs, (pnext stA').2)) = z →
              parseAttrsPart (f + 2) st' = z := by
            intro z hz
            simp only [parseAttrsPart, Option.bind_eq_bind]
            rw [if_pos (by rw [hR.1]; exact hpar), hst2x, hAL', Option.some_bind]
            exact hz
          rcases hrelA with ⟨hRA, hcneA⟩ | hEA
          · by_cases hrp : stA.c = some ')'
            · rw [if_neg (fun hx => hx hrp)] at h2
              simp only [Option.some_inj, Prod.mk.injEq, Option.some.injEq] at h2
              obtain ⟨hr2, hst2b⟩ := h2
              cases hp2 : pnext stA with
              | mk o2 st3 =>
                have hst3 : (pnext stA).2 = st3 := by rw [hp2]
                rw [hst3] at hst2b
                have hsim3 : ∃ st3x, (pnext stA').2 = st3x ∧ REc st3 st3x := by
                  cases o2 with
                  | none =>
                    obtain ⟨hpx2, hE3⟩ := pnext_sim_none hRA hp2
                    exact ⟨gtStep stA', by rw [hpx2], Or.inr hE3⟩
                  | some ch2 =>
                    obtain ⟨hpx2, hR3, hc3⟩ := pnext_sim_some hRA hp2
                    exact ⟨syncStep ch2 st3 stA', by rw [hpx2],
                      Or.inl ⟨hR3, by rw [hc3]; simp⟩⟩
                obtain ⟨st3x, hst3x, hrel3⟩ := hsim3
                refine ⟨st3x, hpre _ ?_, by rw [← hst2b]; exact hrel3⟩
                rw [if_neg (by rw [hRA.1]; exact fun hx => hx hrp), hst3x, hr2]
            · rw [if_pos hrp] at h2
              simp at h2
          · rw [if_pos (by rw [hEA.1]; simp)] at h2
            simp at h2
    · simp only [parseAttrsPart] at h
      rw [if_neg hpar] at h
      simp only [Option.some_inj, Prod.mk.injEq, Option.some.injEq] at h
      obtain ⟨hr, hst⟩ := h
      refine ⟨st', ?_, by rw [← hst]; exact Or.inl ⟨hR, hcne⟩⟩
      simp only [parseAttrsPart]
      rw [if_neg (by rw [hR.1]; exact hpar), hr]
  · simp only [parseAttrsPart] at h
    rw [if_neg (by rw [hE.1]; simp)] at h
    simp only [Option.some_inj, Prod.mk.injEq, Option.some.injEq] at h
    obtain ⟨hr, hst⟩ := h
    refine ⟨st', ?_, by rw [← hst]; exact Or.inr hE⟩
    simp only [parseAttrsPart]
    rw [if_neg (by rw [hE.2.2.1]; simp), hr]

theorem parseSegmentRest_sim {f : Nat} {tag : String} {id : Option String}
    {st st' : PState} {d : Desc} {st1 : PState}
    (hrel : REc st st') (h : parseSegmentRest f tag id st = some (some d, st1)) :
    ∃ st1', parseSegmentRest (f + 2) tag id st' = some (some d, st1') ∧ REc st1 st1' := by
  simp only [parseSegmentRest, Option.bind_eq_bind] at h
  rw [Option.bind_eq_some] at h
  obtain ⟨⟨cls?, stA⟩, hCL, h2⟩ := h
  cases cls? with
  | none =>
    replace h2 : some ((none : Option Desc), stA) = some (some d, st1) := h2
    simp at h2
  | some classes =>
    replace h2 : (parseAttrsPart f stA).bind (fun q =>
        match q.1 with
        | none => some ((none : Option Desc), q.2)
        | some attrs => (eatblanks f q.2).bind (fun stC =>
            some (some ⟨tag, id, classes, attrs⟩, stC))) = some (some d, st1) := h2
    rw [Option.bind_eq_some] at h2
    obtain ⟨⟨attrs?, stB⟩, hAP, h3⟩ := h2
    cases attrs? with
    | none =>
      replace h3 : some ((none : Option Desc), stB) = some (some d, st1) := h3
      simp at h3
    | some attrs =>
      replace h3 : (eatblanks f stB).bind (fun stC =>
          some (some (⟨tag, id, classes, attrs⟩ : Desc), stC)) = some (some d, st1) := h3
      rw [Option.bind_eq_some] at h3
      obtain ⟨stC, hEC, h4⟩ := h3
      simp only [Option.some_inj, Prod.mk.injEq, Option.some.injEq] at h4
      obtain ⟨hd, hst⟩ := h4
      obtain ⟨stA', hCL', hrelA⟩ := classLoop_sim hrel hCL
      obtain ⟨stB', hAP', hrelB⟩ := parseAttrsPart_sim hrelA hAP
      obtain ⟨stC', hEC', hrelC⟩ := eatblanks_sim hrelB hEC
      refine ⟨stC', ?_, by rw [← hst]; exact hrelC⟩
      simp only [parseSegmentRest, Option.bind_eq_bind]
      rw [hCL', Option.some_bind]
      show (parseAttrsPart (f + 2) stA').bind _ = _
      rw [hAP', Option.some_bind]
      show (eatblanks (f + 2) stB').bind _ = _
      rw [eatblanks_mono (by omega : f + 1 ≤ f + 2) hEC', Option.some_bind, hd]

theorem parseSegment_sim {f : Nat} {st st' : PState} {d : Desc} {st1 : PState}
    (hR : Rext st st') (h : parseSegment f st = some (some d, st1)) :
    ∃ st1', parseSegment (f + 2) st' = some (some d, st1') ∧ REc st1 st1' := by
  simp only [parseSegment, Option.bind_eq_bind] at h
  cases hp : pnext st with
  | mk o st2 =>
    have hst2 : (pnext st).2 = st2 := by rw [hp]
    rw [hst2] at h
    have hsim2 : ∃ st2x, (pnext st').2 = st2x ∧ REc st2 st2x := by
      cases o with
      | none =>
        obtain ⟨hpx, hE2⟩ := pnext_sim_none hR hp
        exact ⟨gtStep st', by rw [hpx], Or.inr hE2⟩
      | some ch =>
        obtain ⟨hpx, hR2, hc2⟩ := pnext_sim_some hR hp
        exact ⟨syncStep ch st2 st', by rw [hpx], Or.inl ⟨hR2, by rw [hc2]; simp⟩⟩
    obtain ⟨st2x, hst2x, hrel2⟩ := hsim2
    rw [Option.bind_eq_some] at h
    obtain ⟨⟨tag?, stA⟩, hA, h2⟩ := h
    obtain ⟨stA', hA', hrelA⟩ := getAttr_sim hrel2 hA
    replace h2 : (if stA.c = some '#' then
        ((getAttr f (pnext stA).2).bind (fun q =>
          match q.1 with
          | none => some ((none : Option Desc), syntaxError q.2 "invalid ID")
          | some id => parseSegmentRest f (tag?.getD "div") (some id) q.2))
      else parseSegmentRest f (tag?.getD "div") none stA) = some (some d, st1) := h2
    have hpre : ∀ z, (if stA'.c = some '#' then
        ((getAttr (f + 2) (pnext stA').2).bind (fun q =>
          match q.1 with
          | none => some ((none : Option Desc), syntaxError q.2 "invalid ID")
          | some id => parseSegmentRest (f + 2) (tag?.getD "div") (some id) q.2))
      else parseSegmentRest (f + 2) (tag?.getD "div") none stA') = z →
        parseSegment (f + 2) st' = z := by
      intro z hz
      simp only [parseSegment, Option.bind_eq_bind]
      rw [hst2x, getAttr_mono (by omega : f + 1 ≤ f + 2) hA', Option.some_bind]
      exact hz
    rcases hrelA with ⟨hRA, hcneA⟩ | hEA
    · by_cases hsh : stA.c = some '#'
      · rw [if_pos hsh] at h2
        cases hp2 : pnext stA with
        | mk o2 st3 =>
          have hst3 : (pnext stA).2 = st3 := by rw [hp2]
          rw [hst3] at h2
          have hsim3 : ∃ st3x, (pnext stA').2 = st3x ∧ REc st3 st3x := by
            cases o2 with
            | none =>
              obtain ⟨hpx2, hE3⟩ := pnext_sim_none hRA hp2
              exact ⟨gtStep stA', by rw [hpx2], Or.inr hE3⟩
            | some ch2 =>
              obtain ⟨hpx2, hR3, hc3⟩ := pnext_sim_some hRA hp2
              exact ⟨syncStep ch2 st3 stA', by rw [hpx2],
                Or.inl ⟨hR3, by rw [hc3]; simp⟩⟩
          obtain ⟨st3x, hst3x, hrel3⟩ := hsim3
          rw [Option.bind_eq_some] at h2
          obtain ⟨⟨id?, stB⟩, hIA, h3⟩ := h2
          obtain ⟨stB', hIA', hrelB⟩ := getAttr_sim hrel3 hIA
          cases id? with
          | none =>
            replace h3 : some ((none : Option Desc),
                syntaxError stB "invalid ID") = some (some d, st1) := h3
            simp at h3
          | some id =>
            replace h3 : parseSegmentRest f (tag?.getD "div") (some id) stB =
                some (some d, st1) := h3
            obtain ⟨st1', hrun, hrel1⟩ := parseSegmentRest_sim hrelB h3
            refine ⟨st1', hpre _ ?_, hrel1⟩
            rw [if_pos (by rw [hRA.1]; exact hsh), hst3x,
              getAttr_mono (by omega : f + 1 ≤ f + 2) hIA', Option.some_bind]
            exact hrun
      · rw [if_neg hsh] at h2
        obtain ⟨st1', hrun, hrel1⟩ := parseSegmentRest_sim (Or.inl ⟨hRA, hcneA⟩) h2
        refine ⟨st1', hpre _ ?_, hrel1⟩
        rw [if_neg (by rw [hRA.1]; exact hsh)]
        exact hrun
    · rw [if_neg (by rw [hEA.1]; simp)] at h2
      obtain ⟨st1', hrun, hrel1⟩ := parseSegmentRest_sim (Or.inr hEA) h2
      refine ⟨st1', hpre _ ?_, hrel1⟩
      rw [if_neg (by rw [hEA.2.2.1]; simp)]
      exact hrun

theorem parseSegment_atGt {g : Nat} (hg : 1 ≤ g) {st : PState} (hr : st.rest = []) :
    parseSegment g st = some (some ⟨"div", none, [], []⟩, { st with c := none }) := by
  obtain ⟨g, rfl⟩ : ∃ g', g = g' + 1 := ⟨g - 1, by omega⟩
  have hrE : ({ st with c := none } : PState).rest = [] := hr
  have hcE : ({ st with c := none } : PState).c = none := rfl
  simp only [parseSegment, Option.bind_eq_bind]
  rw [show (pnext st).2 = { st with c := none } from by rw [pnext_nil hr],
    getAttr_atEOF (by omega) hcE hrE, Option.some_bind]
  show (if ({ st with c := none } : PState).c = some '#' then _ else
    parseSegmentRest (g + 1) ((none : Option String).getD "div") none
      { st with c := none }) = _
  rw [if_neg (by rw [hcE]; simp)]
  simp only [parseSegmentRest, Option.bind_eq_bind]
  have hcl : classLoop (g + 1) [] { st with c := none } =
      some (some [], { st with c := none }) := by
    unfold classLoop
    rw [if_neg (by rw [hcE]; simp)]
  rw [hcl, Option.some_bind]
  show (parseAttrsPart (g + 1) { st with c := none }).bind _ = _
  have hap : parseAttrsPart (g + 1) { st with c := none } =
      some (some [], { st with c := none }) := by
    simp only [parseAttrsPart]
    rw [if_neg (by simp)]
  rw [hap, Option.some_bind]
  show (eatblanks (g + 1) { st with c := none }).bind _ = _
  rw [eatblanks_at_none (by omega) hcE, Option.some_bind]
  rfl

theorem chainLoop_solo {g : Nat} {results : List Desc} {st' : PState}
    (hg : 2 ≤ g) (hr : st'.rest = []) :
    chainLoop g results st' =
      some (some (results ++ [⟨"div", none, [], []⟩]), { st' with c := none }) := by
  obtain ⟨g, rfl⟩ : ∃ g', g = g' + 1 := ⟨g - 1, by omega⟩
  unfold chainLoop
  simp only [Option.bind_eq_bind]
  rw [parseSegment_atGt (by omega) hr, Option.some_bind]
  show (if ({ st' with c := none } : PState).c = none then
      some (some (results ++ [⟨"div", none, [], []⟩]), { st' with c := none })
    else _) = _
  rw [if_pos rfl]

theorem chainLoop_sim {f : Nat} {results : List Desc} {st st' : PState}
    {res : List Desc} {st1 : PState}
    (hR : Rext st st') (h : chainLoop f results st = some (some res, st1)) :
    ∃ st1', chainLoop (f + 4) results st' =
      some (some (res ++ [⟨"div", none, [], []⟩]), st1') := by
  induction f generalizing results st st' with
  | zero => simp [chainLoop] at h
  | succ f ih =>
    unfold chainLoop at h
    simp only [Option.bind_eq_bind] at h
    rw [Option.bind_eq_some] at h
    obtain ⟨⟨d?, stA⟩, hSeg, h2⟩ := h
    cases d? with
    | none =>
      replace h2 : some ((none : Option (List Desc)), stA) = some (some res, st1) := h2
      simp at h2
    | some d =>
      replace h2 : (if stA.c = none then some (some (results ++ [d]), stA)
        else if stA.c ≠ some '>' then
          some ((none : Option (List Desc)), syntaxError stA "expected > or EOF")
        else chainLoop f (results ++ [d]) stA) = some (some res, st1) := h2
      obtain ⟨stA', hSeg', hrelA⟩ := parseSegment_sim hR hSeg
      have hpre : ∀ z, (if stA'.c = none then some (some (results ++ [d]), stA')
          else if stA'.c ≠ some '>' then
            some ((none : Option (List Desc)), syntaxError stA' "expected > or EOF")
          else chainLoop (f + 4) (results ++ [d]) stA') = z →
          chainLoop (f + 1 + 4) results st' = z := by
        intro z hz
        unfold chainLoop
        simp only [Option.bind_eq_bind]
        rw [parseSegment_mono (by omega : f + 2 ≤ f + 4) hSeg', Option.some_bind]
        exact hz
      rcases hrelA with ⟨hRA, hcneA⟩ | hEA
      · rw [if_neg hcneA] at h2
        by_cases hgt : stA.c = some '>'
        · rw [if_neg (fun hx => hx hgt)] at h2
          obtain ⟨st1', hrun⟩ := ih hRA h2
          refine ⟨st1', hpre _ ?_⟩
          rw [if_neg (by rw [hRA.1]; exact hcneA),
            if_neg (by rw [hRA.1]; exact fun hx => hx hgt)]
          exact hrun
        · rw [if_pos hgt] at h2
          simp at h2
      · rw [if_pos hEA.1] at h2
        simp only [Option.some_inj, Prod.mk.injEq, Option.some.injEq] at h2
        obtain ⟨hres, hst⟩ := h2
        refine ⟨{ stA' with c := none }, hpre _ ?_⟩
        rw [if_neg (by rw [hEA.2.2.1]; simp),
          if_neg (by rw [hEA.2.2.1]; simp),
          chainLoop_solo (by omega) hEA.2.2.2.1, hres]

/-- C9 counterexample: `"#>"` ends in `'>'`, yet `parse` reports a syntax
error (`invalid ID`) and returns `null` rather than a chain with a
trailing default-`div` descriptor. -/
theorem c9_counterexample :
    "#>".data.getLast? = some '>' ∧ parse "#>" = none := ⟨rfl, rfl⟩

/-- C9 (amended): `parse("")` succeeds with the single default descriptor
`{ tag: "div", id: null, classes: [], attrs: {} }`; and whenever `parse`
succeeds on an input, appending a final `'>'` yields the same chain with
one extra such default-`div` descriptor (the unconditional claim fails on
inputs such as `"#>"`). -/
theorem c9_trailing_gt_amended :
    parse "" = some [⟨"div", none, [], []⟩] ∧
    ∀ (txt : List Char) (res : List Desc), parseResultO txt = some res →
      parseResultO (txt ++ ['>']) = some (res ++ [⟨"div", none, [], []⟩]) := by
  constructor
  · rfl
  · intro txt res h
    unfold parseResultO at h
    cases hrun : parseRun txt with
    | none => rw [hrun] at h; exact absurd h (by simp)
    | some out =>
      obtain ⟨r, stf⟩ := out
      rw [hrun] at h
      replace h : r = some res := h
      subst h
      have hchain : chainLoop (parseBound txt) [] (startState txt) =
          some (some res, stf) := hrun
      have hR : Rext (startState txt) (startState (txt ++ ['>'])) :=
        ⟨rfl, rfl, rfl, rfl⟩
      obtain ⟨st1', hsim⟩ := chainLoop_sim hR hchain
      obtain ⟨out2, hrun2⟩ := c8_parse_terminates (txt ++ ['>'])
      have hchain2 : chainLoop (parseBound (txt ++ ['>'])) []
          (startState (txt ++ ['>'])) = some out2 := hrun2
      have hle : parseBound (txt ++ ['>']) ≤ parseBound txt + 4 := by
        simp only [parseBound, List.length_append, List.length_cons, List.length_nil]
        omega
      have h1 := chainLoop_mono hle hchain2
      rw [hsim] at h1
      unfold parseResultO
      rw [hrun2]
      obtain ⟨r2, st2f⟩ := out2
      simp only [Option.some_inj, Prod.mk.injEq] at h1
      show r2 = some (res ++ [⟨"div", none, [], []⟩])
      exact h1.1.symm

/-- C9 witness: `parse("a")` succeeds with `[{tag: "a"}]`, and the theorem
gives `parse("a>") = [{tag: "a"}, {tag: "div"}]`. -/
theorem c9_witness :
    parseResultO ("a".data ++ ['>']) =
      some ([⟨"a", none, [], []⟩] ++ [⟨"div", none, [], []⟩]) :=
  c9_trailing_gt_amended.2 "a".data [⟨"a", none, [], []⟩] (by rfl)
